import Mathlib

/-!
# TriePredictor (include/NGramPredictor.hpp)

A shallow embedding of `tongrams::TriePredictor<Model>`: the vocabulary cache built by
the constructor, `feed`, `child_range` and `predict`.

Conventions of the embedding.

* The template parameter `Model` (a `tongrams::trie_prob_lm<...>`, declared in
  `trie_prob_lm.hpp`, which is not among the sources) is a parameter: a record of the
  operations the predictor calls on it.  Its `state_type` is a type parameter `σ`
  observed through `length` and the last entry of `words`.
* `float` log-probabilities are values of a linearly ordered type `α` (the order of the
  finite floats; NaN is not modelled).
* `byte_range`, a pair of pointers into the model, is the sequence of bytes it delimits;
  `std::string` is a sequence of bytes.
* `std::priority_queue` is unfolded to its definition over the underlying vector `c`:
  `push` is `c.push_back` followed by `std::push_heap`, `pop` is `std::pop_heap` followed
  by `c.pop_back`, `top` is `c.front()`.  The two heap algorithms are a parameter;
  the theorems assume only their contract in the C++ standard (`conforms`), so that no
  particular arrangement of equal keys is assumed.
* Operations whose behaviour is undefined in C++ (indexing a vector out of range, `top`
  or `pop` on an empty queue) are faults: the functions return `Except Fault _`.
* Every call of `model_.score` is logged with the arguments it receives.
-/

namespace tongrams

/-! ## Data model -/

/-- The bytes delimited by a `byte_range` (a pair of pointers into the model). -/
abbrev byte_range := List UInt8

/-- A `std::string`, as its sequence of bytes. -/
abbrev std_string := List UInt8

/-- The constructor call `std::string(br.first, br.second)`. -/
def string_of_range (br : byte_range) : std_string := br

/-- Modelled from the spec: the operations of the external model (`trie_prob_lm`) that
the predictor consumes.  `score st bytes` gives the returned log-probability, the value
left in the `oov` out-parameter and the advanced state; `array0_range id` is
`array(0).range(id)`; `length st` is `st.length` and `words_back st` is
`*(st.words.rbegin())`. -/
structure Model (σ α : Type) where
  vocab_size : Nat
  vocab_byte_range : Nat → byte_range
  score : σ → byte_range → α × Bool × σ
  array0_range : Nat → List Nat
  length : σ → Nat
  words_back : σ → Nat

/-- A `std::unordered_map<std::string,uint64_t>`, as the list of its entries. -/
abbrev unordered_map := List (std_string × Nat)

/-- The member `find`: the value stored under `w`, if any. -/
def unordered_map.find : unordered_map → std_string → Option Nat
  | [], _ => none
  | (key, v) :: rest, w => if key = w then some v else unordered_map.find rest w

/-- The member `emplace`: inserts the pair unless the key is already present. -/
def unordered_map.emplace (m : unordered_map) (key : std_string) (v : Nat) : unordered_map :=
  match unordered_map.find m key with
  | some _ => m
  | none => m ++ [(key, v)]

/-- The class `TriePredictor<Model>`: its four data members. -/
structure TriePredictor (σ α : Type) where
  model_ : Model σ α
  vocab_bytes_ : List byte_range
  vocab_strings_ : List std_string
  vocab_map_ : unordered_map

/-- One iteration of the first constructor loop (lines 24-28). -/
def cache_step {σ α : Type} (model : Model σ α)
    (acc : List byte_range × List std_string) (id : Nat) :
    List byte_range × List std_string :=
  let br := model.vocab_byte_range id
  (acc.1 ++ [br], acc.2 ++ [string_of_range br])

/-- One iteration of the second constructor loop (lines 29-30); the index is in range
by the loop guard. -/
def map_step (vocab_strings : List std_string) (m : unordered_map) (id : Nat) :
    unordered_map :=
  match vocab_strings[id]? with
  | some s => unordered_map.emplace m s id
  | none => m

/-- The constructor (lines 17-31), from the loaded model. -/
def TriePredictor.ctor {σ α : Type} (model : Model σ α) : TriePredictor σ α :=
  let V := model.vocab_size
  let caches := (List.range V).foldl (cache_step model) ([], [])
  let vmap := (List.range caches.2.length).foldl (map_step caches.2) []
  { model_ := model
    vocab_bytes_ := caches.1
    vocab_strings_ := caches.2
    vocab_map_ := vmap }

/-- The lookup `vocab_map_.find(w)` of the spec. -/
def TriePredictor.lookup {σ α : Type} (P : TriePredictor σ α) (w : std_string) : Option Nat :=
  unordered_map.find P.vocab_map_ w

/-- The read `vocab_strings_[id]` of the spec (`stringOf`). -/
def TriePredictor.stringOf {σ α : Type} (P : TriePredictor σ α) (id : Nat) : Option std_string :=
  P.vocab_strings_[id]?

/-! ## Faults and call log -/

/-- The undefined operations the code could reach. -/
inductive Fault where
  | vocab_bytes_out_of_range
  | vocab_strings_out_of_range
  | top_on_empty_heap
  | pop_on_empty_heap
  deriving DecidableEq, Repr

deriving instance DecidableEq for Except

/-- The arguments of one call `model_.score(st, bytes, oov)`. -/
abbrev ScoreCall (σ : Type) := σ × byte_range

/-- What an operation returns, with the log of the `model_.score` calls it made. -/
structure Run (σ β : Type) where
  value : β
  calls : List (ScoreCall σ)
  deriving DecidableEq

/-! ## The priority queue -/

/-- The alias `Item = std::pair<float,uint64_t>`: log-probability and word id. -/
abbrev Item (α : Type) := α × Nat

/-- The comparator of line 39. -/
def cmp {α : Type} [LinearOrder α] (a b : Item α) : Bool := decide (a.1 > b.1)

/-- The heap property `std::is_heap` with respect to `comp`: no element compares
greater than its parent, the parent of position `i` being `(i - 1) / 2`. -/
def is_heap {ι : Type} (comp : ι → ι → Bool) (v : List ι) : Prop :=
  ∀ i p x, 0 < i → v[(i - 1) / 2]? = some p → v[i]? = some x → comp p x = false

/-- The algorithms `std::push_heap` and `std::pop_heap`, applied to the whole vector. -/
structure heap_algorithms (ι : Type) where
  push_heap : List ι → List ι
  pop_heap : List ι → List ι

/-- The contract of the two algorithms in the C++ standard: `push_heap` turns a heap
followed by one element into a heap, `pop_heap` moves the front of a non-empty heap to
the back and leaves a heap before it; both only permute. -/
def heap_algorithms.conforms {ι : Type} (comp : ι → ι → Bool) (H : heap_algorithms ι) : Prop :=
  (∀ (v : List ι) (x : ι), is_heap comp v →
    is_heap comp (H.push_heap (v ++ [x])) ∧ (H.push_heap (v ++ [x])).Perm (v ++ [x])) ∧
  (∀ (x : ι) (v : List ι), is_heap comp (x :: v) →
    ∃ v', H.pop_heap (x :: v) = v' ++ [x] ∧ is_heap comp v' ∧ v'.Perm v)

/-- The underlying vector `c` of a `std::priority_queue`. -/
abbrev priority_queue (ι : Type) := List ι

/-- The member `size`. -/
def priority_queue.size {ι : Type} (q : priority_queue ι) : Nat := q.length

/-- The member `top`: `c.front()`, undefined on an empty queue. -/
def priority_queue.top {ι : Type} (q : priority_queue ι) : Option ι := q.head?

/-- The member `push`: `c.push_back(x)` then `push_heap`. -/
def priority_queue.push {ι : Type} (H : heap_algorithms ι)
    (q : priority_queue ι) (x : ι) : priority_queue ι :=
  H.push_heap (q ++ [x])

/-- The member `pop`: `pop_heap` then `c.pop_back()`, undefined on an empty queue. -/
def priority_queue.pop {ι : Type} (H : heap_algorithms ι)
    (q : priority_queue ι) : Option (priority_queue ι) :=
  match q with
  | [] => none
  | _ :: _ => some (H.pop_heap q).dropLast

/-! ## child_range, predict, feed -/

section predictor

variable {σ α : Type} [LinearOrder α] [Inhabited α]

/-- The helper `child_range` (lines 81-88): the empty range for an empty context, else
the order-1 successors of the last added word. -/
def child_range (P : TriePredictor σ α) (st : σ) : List Nat :=
  if P.model_.length st = 0 then []
  else
    let id := P.model_.words_back st
    P.model_.array0_range id

/-- The body of the scoring loop (lines 49-57) for one `child_id`. -/
def score_step (H : heap_algorithms (Item α)) (P : TriePredictor σ α) (ctx_state : σ)
    (k : Nat) (acc : priority_queue (Item α) × List (ScoreCall σ)) (child_id : Nat) :
    Except Fault (priority_queue (Item α) × List (ScoreCall σ)) :=
  let heap := acc.1
  match P.vocab_bytes_[child_id]? with
  | none => .error Fault.vocab_bytes_out_of_range
  | some br =>
    let tmp := ctx_state
    let lp := (P.model_.score tmp br).1
    let calls := acc.2 ++ [(tmp, br)]
    if priority_queue.size heap < k then
      .ok (priority_queue.push H heap (lp, child_id), calls)
    else
      match priority_queue.top heap with
      | none => .error Fault.top_on_empty_heap
      | some t =>
        if lp > t.1 then
          match priority_queue.pop H heap with
          | none => .error Fault.pop_on_empty_heap
          | some heap' => .ok (priority_queue.push H heap' (lp, child_id), calls)
        else .ok (heap, calls)

/-- The scoring loop (lines 48-58) over the ids of the range. -/
def score_loop (H : heap_algorithms (Item α)) (P : TriePredictor σ α) (ctx_state : σ)
    (k : Nat) : List Nat → priority_queue (Item α) × List (ScoreCall σ) →
    Except Fault (priority_queue (Item α) × List (ScoreCall σ))
  | [], acc => .ok acc
  | child_id :: it, acc =>
    match score_step H P ctx_state k acc child_id with
    | .error e => .error e
    | .ok acc' => score_loop H P ctx_state k it acc'

/-- The export loop (lines 62-65): `for (i = out.size(); i--;)` writes `out[i]` from the
top of the heap and pops it. -/
def export_loop (H : heap_algorithms (Item α)) (P : TriePredictor σ α) :
    Nat → priority_queue (Item α) → List (std_string × α) →
    Except Fault (List (std_string × α))
  | 0, _, out => .ok out
  | i + 1, heap, out =>
    match priority_queue.top heap with
    | none => .error Fault.top_on_empty_heap
    | some t =>
      match P.vocab_strings_[t.2]? with
      | none => .error Fault.vocab_strings_out_of_range
      | some s =>
        match priority_queue.pop H heap with
        | none => .error Fault.pop_on_empty_heap
        | some heap' => export_loop H P i heap' (out.set i (s, t.1))

/-- The member `predict` (lines 34-67). -/
def predict (H : heap_algorithms (Item α)) (P : TriePredictor σ α) (ctx_state : σ)
    (k : Nat) : Except Fault (Run σ (List (std_string × α))) :=
  let r := child_range P ctx_state
  if r = [] then .ok { value := [], calls := [] }
  else
    match score_loop H P ctx_state k r ([], []) with
    | .error e => .error e
    | .ok (heap, calls) =>
      let out : List (std_string × α) :=
        List.replicate (priority_queue.size heap) (([] : std_string), (default : α))
      match export_loop H P (List.length out) heap out with
      | .error e => .error e
      | .ok out' => .ok { value := out', calls := calls }

/-- The member `feed` (lines 70-74); the value is the state left in `st`. -/
def feed (P : TriePredictor σ α) (st : σ) (w : std_string) : Except Fault (Run σ σ) :=
  match unordered_map.find P.vocab_map_ w with
  | none => .ok { value := st, calls := [] }
  | some id =>
    match P.vocab_bytes_[id]? with
    | none => .error Fault.vocab_bytes_out_of_range
    | some br => .ok { value := (P.model_.score st br).2.2, calls := [(st, br)] }

end predictor

/-! ## A conforming heap implementation and a small model, for concrete runs -/

/-- A conforming implementation of the two heap algorithms: both leave the heap part
in ascending order of log-probability (a sorted vector is a heap). -/
def sorting_heap (α : Type) [LinearOrder α] : heap_algorithms (Item α) where
  push_heap := fun v => v.insertionSort (fun a b => a.1 ≤ b.1)
  pop_heap := fun v =>
    match v with
    | [] => []
    | x :: t => t.insertionSort (fun a b => a.1 ≤ b.1) ++ [x]

/-- The bytes of the five demo words: the, quick, brown, fox, jumps. -/
def demo_words : List byte_range :=
  [[116, 104, 101], [113, 117, 105, 99, 107], [98, 114, 111, 119, 110],
   [102, 111, 120], [106, 117, 109, 112, 115]]

/-- A model over the five demo words.  Its state is the list of the ids scored so far;
the log-probability of a word is minus the distance of its length to the number of
words of the state, so that it depends on the whole context. -/
def demo_model : Model (List Nat) Int where
  vocab_size := 5
  vocab_byte_range := fun id => demo_words.getD id []
  score := fun st br =>
    (- ((Int.ofNat br.length - Int.ofNat st.length).natAbs : Int),
      decide (br ∉ demo_words), st ++ [demo_words.indexOf br])
  array0_range := fun id =>
    match id with
    | 0 => [1, 2, 3, 4]
    | 1 => [2]
    | 2 => [3, 0, 3]
    | 3 => [4]
    | _ => []
  length := fun st => st.length
  words_back := fun st => st.getLastD 0

/-- The predictor constructed over the demo model. -/
def demo_predictor : TriePredictor (List Nat) Int := TriePredictor.ctor demo_model

/-- A model that supplies the same bytes for its two ids. -/
def twin_model : Model (List Nat) Int where
  vocab_size := 2
  vocab_byte_range := fun _ => [97]
  score := fun st _ => (0, false, st)
  array0_range := fun _ => []
  length := fun st => st.length
  words_back := fun st => st.getLastD 0

/-- The loop `for (auto& w : kContext) P.feed(st, w);` of `run_demo`
(test/test_predict_demo.cpp, line 24): the words are fed in order to the same state. -/
def feed_words {σ α : Type} (P : TriePredictor σ α) : σ → List std_string → Except Fault (Run σ σ)
  | st, [] => .ok { value := st, calls := [] }
  | st, w :: ws =>
    match feed P st w with
    | .error e => .error e
    | .ok r1 =>
      match feed_words P r1.value ws with
      | .error e => .error e
      | .ok r2 => .ok { value := r2.value, calls := r1.calls ++ r2.calls }

/-- The model of Scenario A of the spec, with rational log-probabilities: the five demo
words, `jumps` the only successor of `fox` and scored -0.1 after `fox`, every other
score being -1. -/
def scenario_model : Model (List Nat) ℚ where
  vocab_size := 5
  vocab_byte_range := fun id => demo_words.getD id []
  score := fun st br =>
    (if st.getLastD 0 = 3 ∧ br = [106, 117, 109, 112, 115] then -1 / 10 else -1,
      decide (br ∉ demo_words), st ++ [demo_words.indexOf br])
  array0_range := fun id =>
    match id with
    | 3 => [4]
    | _ => []
  length := fun st => st.length
  words_back := fun st => st.getLastD 0

/-! ## The vocabulary cache -/

section vocabulary

variable {σ α : Type}

theorem foldl_cache_step (model : Model σ α) (n : Nat) :
    (List.range n).foldl (cache_step model) ([], []) =
      ((List.range n).map model.vocab_byte_range,
        (List.range n).map (fun id => string_of_range (model.vocab_byte_range id))) := by
  induction n with
  | zero => rfl
  | succ n ih =>
    rw [List.range_succ, List.foldl_append, ih]
    simp [cache_step]

theorem ctor_vocab_bytes (model : Model σ α) :
    (TriePredictor.ctor model).vocab_bytes_ = (List.range model.vocab_size).map model.vocab_byte_range := by
  simp [TriePredictor.ctor, foldl_cache_step]

theorem ctor_vocab_strings (model : Model σ α) :
    (TriePredictor.ctor model).vocab_strings_ =
      (List.range model.vocab_size).map (fun id => string_of_range (model.vocab_byte_range id)) := by
  simp [TriePredictor.ctor, foldl_cache_step]

theorem ctor_vocab_map (model : Model σ α) :
    (TriePredictor.ctor model).vocab_map_ =
      (List.range (TriePredictor.ctor model).vocab_strings_.length).foldl
        (map_step (TriePredictor.ctor model).vocab_strings_) [] := rfl

theorem ctor_model (model : Model σ α) : (TriePredictor.ctor model).model_ = model := rfl

theorem ctor_vocab_bytes_length (model : Model σ α) :
    (TriePredictor.ctor model).vocab_bytes_.length = model.vocab_size := by
  simp [ctor_vocab_bytes]

theorem ctor_vocab_strings_length (model : Model σ α) :
    (TriePredictor.ctor model).vocab_strings_.length = model.vocab_size := by
  simp [ctor_vocab_strings]

theorem ctor_vocab_bytes_get (model : Model σ α) (id : Nat) (h : id < model.vocab_size) :
    (TriePredictor.ctor model).vocab_bytes_[id]? = some (model.vocab_byte_range id) := by
  simp [ctor_vocab_bytes, List.getElem?_map, List.getElem?_range h]

theorem ctor_vocab_strings_get (model : Model σ α) (id : Nat) (h : id < model.vocab_size) :
    (TriePredictor.ctor model).vocab_strings_[id]? =
      some (string_of_range (model.vocab_byte_range id)) := by
  simp [ctor_vocab_strings, List.getElem?_map, List.getElem?_range h]

theorem find_append (m m' : unordered_map) (w : std_string) :
    unordered_map.find (m ++ m') w =
      match unordered_map.find m w with
      | some v => some v
      | none => unordered_map.find m' w := by
  induction m with
  | nil => simp [unordered_map.find]
  | cons e m ih =>
    obtain ⟨key, v⟩ := e
    by_cases h : key = w
    · simp [unordered_map.find, h]
    · simp [unordered_map.find, h, ih]

/-- The map after `n` iterations of the second constructor loop: a stored id is the
first position of its key, and a missing key occurs at no position below `n`. -/
theorem foldl_map_step_inv (strs : List std_string) (n : Nat) (hn : n ≤ strs.length) :
    (∀ w i, unordered_map.find ((List.range n).foldl (map_step strs) []) w = some i →
      i < n ∧ strs[i]? = some w ∧ ∀ j, j < i → strs[j]? ≠ some w) ∧
    (∀ w, unordered_map.find ((List.range n).foldl (map_step strs) []) w = none →
      ∀ j, j < n → strs[j]? ≠ some w) := by
  induction n with
  | zero =>
    constructor
    · intro w i h
      simp [unordered_map.find] at h
    · intro w _ j hj
      omega
  | succ n ih =>
    obtain ⟨ihA, ihB⟩ := ih (by omega)
    have hlt : n < strs.length := by omega
    rw [List.range_succ, List.foldl_append]
    simp only [List.foldl_cons, List.foldl_nil]
    generalize (List.range n).foldl (map_step strs) [] = M at ihA ihB
    have hs : strs[n]? = some strs[n] := List.getElem?_eq_getElem hlt
    simp only [map_step, hs, unordered_map.emplace]
    cases hM : unordered_map.find M strs[n] with
    | some v =>
      simp only
      constructor
      · intro w i h
        obtain ⟨h1, h2, h3⟩ := ihA w i h
        exact ⟨by omega, h2, h3⟩
      · intro w h j hj
        rcases Nat.lt_succ_iff_lt_or_eq.mp hj with hj' | hj'
        · exact ihB w h j hj'
        · subst hj'
          intro hjw
          rw [hs] at hjw
          injection hjw with hjw
          rw [hjw, h] at hM
          cases hM
    | none =>
      simp only
      constructor
      · intro w i h
        rw [find_append] at h
        cases hw : unordered_map.find M w with
        | some v =>
          rw [hw] at h
          simp only [Option.some.injEq] at h
          subst h
          obtain ⟨h1, h2, h3⟩ := ihA w v hw
          exact ⟨by omega, h2, h3⟩
        | none =>
          rw [hw] at h
          simp only [unordered_map.find] at h
          by_cases hk : strs[n] = w
          · simp [hk] at h
            subst h
            exact ⟨by omega, by rw [hs, hk], ihB w hw⟩
          · simp [hk] at h
      · intro w h j hj
        rw [find_append] at h
        cases hw : unordered_map.find M w with
        | some v =>
          rw [hw] at h
          simp at h
        | none =>
          rw [hw] at h
          simp only [unordered_map.find] at h
          by_cases hk : strs[n] = w
          · simp [hk] at h
          · rcases Nat.lt_succ_iff_lt_or_eq.mp hj with hj' | hj'
            · exact ihB w hw j hj'
            · subst hj'
              rw [hs]
              intro hjw
              injection hjw with hjw
              exact hk hjw

/-- The lookup of the constructed predictor returns the first id whose cached string is
the word. -/
theorem ctor_lookup_eq_some (model : Model σ α) (w : std_string) (i : Nat) :
    (TriePredictor.ctor model).lookup w = some i ↔
      i < model.vocab_size ∧ string_of_range (model.vocab_byte_range i) = w ∧
        ∀ j, j < i → string_of_range (model.vocab_byte_range j) ≠ w := by
  have hlen := ctor_vocab_strings_length model
  obtain ⟨hA, hB⟩ := foldl_map_step_inv (TriePredictor.ctor model).vocab_strings_
    (TriePredictor.ctor model).vocab_strings_.length (le_refl _)
  rw [← ctor_vocab_map] at hA hB
  rw [hlen] at hA hB
  unfold TriePredictor.lookup
  constructor
  · intro h
    obtain ⟨h1, h2, h3⟩ := hA w i h
    rw [ctor_vocab_strings_get model i h1] at h2
    refine ⟨h1, by simpa using h2, ?_⟩
    intro j hj hjw
    apply h3 j hj
    rw [ctor_vocab_strings_get model j (by omega), hjw]
  · rintro ⟨h1, h2, h3⟩
    have hi : (TriePredictor.ctor model).vocab_strings_[i]? = some w := by
      rw [ctor_vocab_strings_get model i h1, h2]
    cases hf : unordered_map.find (TriePredictor.ctor model).vocab_map_ w with
    | none => exact absurd hi (hB w hf i h1)
    | some v =>
      obtain ⟨g1, g2, g3⟩ := hA w v hf
      rcases Nat.lt_trichotomy v i with hlt | heq | hgt
      · exfalso
        apply h3 v hlt
        rw [ctor_vocab_strings_get model v g1] at g2
        simpa using g2
      · rw [heq]
      · exact absurd hi (g3 i hgt)

theorem child_range_ctor (model : Model σ α) (ctx : σ) :
    child_range (TriePredictor.ctor model) ctx =
      if model.length ctx = 0 then [] else model.array0_range (model.words_back ctx) := rfl

theorem find_eq_none_of_not_key (m : unordered_map) (w : std_string)
    (h : w ∉ m.map Prod.fst) : unordered_map.find m w = none := by
  induction m with
  | nil => rfl
  | cons e m ih =>
    obtain ⟨key, v⟩ := e
    simp only [List.map_cons, List.mem_cons, not_or] at h
    simp only [unordered_map.find, if_neg (Ne.symm h.1)]
    exact ih h.2

theorem feed_oov (P : TriePredictor σ α) (st : σ) (w : std_string)
    (h : w ∉ P.vocab_map_.map Prod.fst) : feed P st w = .ok { value := st, calls := [] } := by
  simp [feed, find_eq_none_of_not_key P.vocab_map_ w h]

end vocabulary

/-! ## The priority queue under the comparator of `predict` -/

section heap

variable {α : Type} [LinearOrder α]

theorem cmp_eq_false_iff (a b : Item α) : cmp a b = false ↔ a.1 ≤ b.1 := by
  simp [cmp]

theorem is_heap_nil {ι : Type} (comp : ι → ι → Bool) : is_heap comp ([] : List ι) := by
  intro i p x _ _ hx
  simp at hx

/-- The front of a heap under `cmp` has the least log-probability. -/
theorem heap_front_le (t : Item α) (q : List (Item α)) (h : is_heap cmp (t :: q)) :
    ∀ y, y ∈ t :: q → t.1 ≤ y.1 := by
  have key : ∀ (n i : Nat) (y : Item α), i ≤ n → (t :: q)[i]? = some y → t.1 ≤ y.1 := by
    intro n
    induction n with
    | zero =>
      intro i y hi hy
      have : i = 0 := by omega
      subst this
      simp at hy
      rw [hy]
    | succ n ih =>
      intro i y hi hy
      rcases Nat.eq_zero_or_pos i with h0 | hpos
      · subst h0
        simp at hy
        rw [hy]
      · have hlt : i < (t :: q).length := by
          by_contra hcon
          rw [List.getElem?_eq_none (by omega)] at hy
          cases hy
        have hp : (i - 1) / 2 < (t :: q).length := by omega
        have hpe : (t :: q)[(i - 1) / 2]? = some (t :: q)[(i - 1) / 2] :=
          List.getElem?_eq_getElem hp
        have h1 := ih ((i - 1) / 2) _ (by omega) hpe
        have h2 := (cmp_eq_false_iff _ _).mp (h i _ y hpos hpe hy)
        exact le_trans h1 h2
  intro y hy
  obtain ⟨i, hi⟩ := List.getElem?_of_mem hy
  exact key i i y (le_refl _) hi

theorem push_spec (H : heap_algorithms (Item α)) (hH : H.conforms cmp)
    (q : priority_queue (Item α)) (x : Item α) (hq : is_heap cmp q) :
    is_heap cmp (priority_queue.push H q x) ∧ (priority_queue.push H q x).Perm (x :: q) := by
  obtain ⟨h1, h2⟩ := hH.1 q x hq
  refine ⟨h1, h2.trans ?_⟩
  exact List.perm_append_singleton x q

theorem pop_spec (H : heap_algorithms (Item α)) (hH : H.conforms cmp)
    (t : Item α) (q : priority_queue (Item α)) (hq : is_heap cmp (t :: q)) :
    ∃ q', priority_queue.pop H (t :: q) = some q' ∧ is_heap cmp q' ∧ q'.Perm q := by
  obtain ⟨v', h1, h2, h3⟩ := hH.2 t q hq
  refine ⟨v', ?_, h2, h3⟩
  simp [priority_queue.pop, h1]

theorem sorted_is_heap (v : List (Item α)) (h : v.Pairwise (fun a b => a.1 ≤ b.1)) :
    is_heap cmp v := by
  intro i p x hpos hp hx
  rw [cmp_eq_false_iff]
  obtain ⟨hi, rfl⟩ := List.getElem?_eq_some.mp hx
  obtain ⟨hj, rfl⟩ := List.getElem?_eq_some.mp hp
  exact List.pairwise_iff_getElem.mp h _ _ hj hi (by omega)

/-- The sorting implementation meets the contract of the heap algorithms. -/
theorem sorting_heap_conforms : (sorting_heap α).conforms cmp := by
  haveI : IsTotal (Item α) (fun a b => a.1 ≤ b.1) := ⟨fun a b => le_total a.1 b.1⟩
  haveI : IsTrans (Item α) (fun a b => a.1 ≤ b.1) := ⟨fun a b c => le_trans⟩
  constructor
  · intro v x _
    exact ⟨sorted_is_heap _ (List.sorted_insertionSort _ _), List.perm_insertionSort _ _⟩
  · intro x v _
    exact ⟨v.insertionSort _, rfl, sorted_is_heap _ (List.sorted_insertionSort _ _),
      List.perm_insertionSort _ _⟩

end heap

/-! ## The selection loops of `predict` -/

section selection

variable {σ α : Type} [LinearOrder α]

/-- One iteration of the scoring loop keeps the invariant: the heap holds the
`min k n` best of the `n` items seen, `rest` being the others. -/
theorem score_step_spec (H : heap_algorithms (Item α)) (hH : H.conforms cmp)
    (P : TriePredictor σ α) (ctx : σ) (k : Nat) (hk : 1 ≤ k)
    (heap rest D : List (Item α)) (calls : List (ScoreCall σ)) (c : Nat) (br : byte_range)
    (hbr : P.vocab_bytes_[c]? = some br)
    (hheap : is_heap cmp heap) (hperm : (heap ++ rest).Perm D)
    (hlow : ∀ r, r ∈ rest → ∀ h, h ∈ heap → r.1 ≤ h.1)
    (hlen : heap.length = min k D.length) :
    ∃ heap' rest', score_step H P ctx k (heap, calls) c = .ok (heap', calls ++ [(ctx, br)]) ∧
      is_heap cmp heap' ∧ (heap' ++ rest').Perm (D ++ [((P.model_.score ctx br).1, c)]) ∧
      (∀ r, r ∈ rest' → ∀ h, h ∈ heap' → r.1 ≤ h.1) ∧
      heap'.length = min k (D.length + 1) := by
  have hD : heap.length + rest.length = D.length := by
    rw [← List.length_append]
    exact hperm.length_eq
  simp only [score_step, hbr, priority_queue.size]
  by_cases hsz : heap.length < k
  · have hrest : rest = [] := by
      apply List.eq_nil_of_length_eq_zero
      have : heap.length = D.length := by
        rcases Nat.le_total k D.length with h | h
        · rw [Nat.min_eq_left h] at hlen
          omega
        · rw [Nat.min_eq_right h] at hlen
          exact hlen
      omega
    subst hrest
    obtain ⟨h1, h2⟩ := push_spec H hH heap ((P.model_.score ctx br).1, c) hheap
    refine ⟨_, [], by simp [hsz], h1, ?_, ?_, ?_⟩
    · rw [List.append_nil] at hperm ⊢
      exact h2.trans ((List.perm_append_singleton _ heap).symm.trans (hperm.append_right _))
    · intro r hr
      simp at hr
    · rw [h2.length_eq, List.length_cons]
      simp only [List.length_nil] at hD
      omega
  · have hkD : heap.length = k := by
      have := Nat.min_le_left k D.length
      omega
    cases heap with
    | nil =>
      simp at hkD
      omega
    | cons t q =>
      have hmin := heap_front_le t q hheap
      simp only [if_neg hsz, priority_queue.top, List.head?_cons]
      by_cases hgt : (P.model_.score ctx br).1 > t.1
      · obtain ⟨q', hpop, hq', hpq⟩ := pop_spec H hH t q hheap
        obtain ⟨h1, h2⟩ := push_spec H hH q' ((P.model_.score ctx br).1, c) hq'
        refine ⟨_, t :: rest, by simp [hgt, hpop], h1, ?_, ?_, ?_⟩
        · have e1 : (priority_queue.push H q' ((P.model_.score ctx br).1, c) ++ t :: rest).Perm
              ((((P.model_.score ctx br).1, c) :: q) ++ t :: rest) :=
            (h2.trans (hpq.cons _)).append_right _
          refine e1.trans ?_
          rw [List.cons_append]
          refine (List.Perm.cons _ List.perm_middle).trans ?_
          refine (List.Perm.cons _ hperm).trans ?_
          exact (List.perm_append_singleton _ D).symm
        · intro r hr h hh
          have hh' : h ∈ ((P.model_.score ctx br).1, c) :: q := (h2.trans (hpq.cons _)).subset hh
          have hrt : r.1 ≤ t.1 := by
            rcases List.mem_cons.mp hr with hr' | hr'
            · rw [hr']
            · exact hlow r hr' t (List.mem_cons_self _ _)
          rcases List.mem_cons.mp hh' with hx | hx
          · rw [hx]
            exact le_trans hrt (le_of_lt hgt)
          · exact le_trans hrt (hmin h (List.mem_cons_of_mem _ hx))
        · rw [h2.length_eq, List.length_cons, hpq.length_eq]
          simp only [List.length_cons] at hkD hD
          omega
      · refine ⟨t :: q, ((P.model_.score ctx br).1, c) :: rest, by simp [hgt], hheap, ?_, ?_, ?_⟩
        · refine List.perm_middle.trans ?_
          refine (List.Perm.cons _ hperm).trans ?_
          exact (List.perm_append_singleton _ D).symm
        · intro r hr h hh
          rcases List.mem_cons.mp hr with hr' | hr'
          · rw [hr']
            exact le_trans (not_lt.mp hgt) (hmin h hh)
          · exact hlow r hr' h hh
        · simp only [List.length_cons] at hkD hD ⊢
          omega

/-- The scoring loop, from a state that satisfies the invariant, reaches a state that
satisfies it for all the candidates, having logged one call per candidate. -/
theorem score_loop_spec (H : heap_algorithms (Item α)) (hH : H.conforms cmp)
    (P : TriePredictor σ α) (ctx : σ) (k : Nat) (hk : 1 ≤ k) (bytes : Nat → byte_range)
    (cands : List Nat) (hb : ∀ c, c ∈ cands → P.vocab_bytes_[c]? = some (bytes c)) :
    ∀ (heap rest D : List (Item α)) (calls : List (ScoreCall σ)),
      is_heap cmp heap → (heap ++ rest).Perm D →
      (∀ r, r ∈ rest → ∀ h, h ∈ heap → r.1 ≤ h.1) →
      heap.length = min k D.length →
      ∃ heap' rest',
        score_loop H P ctx k cands (heap, calls) =
          .ok (heap', calls ++ cands.map (fun c => (ctx, bytes c))) ∧
        is_heap cmp heap' ∧
        (heap' ++ rest').Perm (D ++ cands.map (fun c => ((P.model_.score ctx (bytes c)).1, c))) ∧
        (∀ r, r ∈ rest' → ∀ h, h ∈ heap' → r.1 ≤ h.1) ∧
        heap'.length = min k (D.length + cands.length) := by
  induction cands with
  | nil =>
    intro heap rest D calls h1 h2 h3 h4
    exact ⟨heap, rest, by simp [score_loop], h1, by simpa using h2, h3, by simpa using h4⟩
  | cons c it ih =>
    intro heap rest D calls h1 h2 h3 h4
    obtain ⟨heap1, rest1, e1, g1, g2, g3, g4⟩ :=
      score_step_spec H hH P ctx k hk heap rest D calls c (bytes c)
        (hb c (List.mem_cons_self _ _)) h1 h2 h3 h4
    obtain ⟨heap2, rest2, e2, f1, f2, f3, f4⟩ :=
      ih (fun c' hc' => hb c' (List.mem_cons_of_mem _ hc')) heap1 rest1 _ (calls ++ [(ctx, bytes c)])
        g1 g2 g3 (by simpa using g4)
    refine ⟨heap2, rest2, ?_, f1, ?_, f3, ?_⟩
    · simp only [score_loop, e1, e2]
      simp
    · simpa using f2
    · rw [f4]
      simp only [List.length_append, List.length_cons, List.length_nil]
      congr 1
      omega

/-- The export loop writes the items of the heap, best first, into the last `i`
positions it visits. -/
theorem export_loop_spec (H : heap_algorithms (Item α)) (hH : H.conforms cmp)
    (P : TriePredictor σ α) (str : Nat → std_string) :
    ∀ (i : Nat) (heap : List (Item α)) (out : List (std_string × α)),
      is_heap cmp heap → heap.length = i → i ≤ out.length →
      (∀ t, t ∈ heap → P.vocab_strings_[t.2]? = some (str t.2)) →
      ∃ L : List (Item α), L.Perm heap ∧ L.Pairwise (fun a b => a.1 ≥ b.1) ∧
        export_loop H P i heap out = .ok (L.map (fun t => (str t.2, t.1)) ++ out.drop i) := by
  intro i
  induction i with
  | zero =>
    intro heap out _ hlen _ _
    have : heap = [] := List.eq_nil_of_length_eq_zero hlen
    subst this
    exact ⟨[], List.Perm.refl _, List.Pairwise.nil, by simp [export_loop]⟩
  | succ i ih =>
    intro heap out hheap hlen hout hstr
    cases heap with
    | nil => simp at hlen
    | cons t q =>
      have hmin := heap_front_le t q hheap
      obtain ⟨q', hpop, hq', hpq⟩ := pop_spec H hH t q hheap
      have hlen' : q'.length = i := by
        rw [hpq.length_eq]
        simpa using hlen
      obtain ⟨L, hL1, hL2, hL3⟩ := ih q' (out.set i (str t.2, t.1)) hq' hlen'
        (by rw [List.length_set]; omega)
        (fun t' ht' => hstr t' (List.mem_cons_of_mem _ (hpq.subset ht')))
      refine ⟨L ++ [t], ?_, ?_, ?_⟩
      · exact (List.perm_append_singleton t L).trans ((hL1.trans hpq).cons t)
      · rw [List.pairwise_append]
        refine ⟨hL2, List.pairwise_singleton _ _, ?_⟩
        intro a ha b hb
        rw [List.mem_singleton] at hb
        rw [hb]
        exact hmin a (List.mem_cons_of_mem _ ((hL1.trans hpq).subset ha))
      · have hset : (out.set i (str t.2, t.1)).drop i = (str t.2, t.1) :: out.drop (i + 1) := by
          rw [List.drop_set, if_neg (Nat.lt_irrefl i), Nat.sub_self,
            List.drop_eq_getElem_cons (by omega : i < out.length)]
          rfl
        simp only [export_loop, priority_queue.top, List.head?_cons,
          hstr t (List.mem_cons_self _ _), hpop, hL3, hset]
        simp

/-- What `predict` computes, for any predictor whose caches cover the candidates: it
returns the entries of a list `kept` of candidates, best first, such that the other
candidates `rest` score no higher than any kept one, and it scores every candidate
once against the caller's state. -/
theorem predict_spec [Inhabited α] (H : heap_algorithms (Item α)) (hH : H.conforms cmp)
    (P : TriePredictor σ α) (ctx : σ) (k : Nat) (bytes : Nat → byte_range)
    (str : Nat → std_string)
    (hk : 1 ≤ k ∨ child_range P ctx = [])
    (hb : ∀ c, c ∈ child_range P ctx → P.vocab_bytes_[c]? = some (bytes c))
    (hs : ∀ c, c ∈ child_range P ctx → P.vocab_strings_[c]? = some (str c)) :
    ∃ kept rest : List Nat,
      predict H P ctx k =
        .ok { value := kept.map (fun c => (str c, (P.model_.score ctx (bytes c)).1)),
              calls := (child_range P ctx).map (fun c => (ctx, bytes c)) } ∧
      (kept ++ rest).Perm (child_range P ctx) ∧
      (kept.map (fun c => (P.model_.score ctx (bytes c)).1)).Pairwise (fun a b => a ≥ b) ∧
      (∀ r, r ∈ rest → ∀ c, c ∈ kept →
        (P.model_.score ctx (bytes r)).1 ≤ (P.model_.score ctx (bytes c)).1) ∧
      kept.length = min k (child_range P ctx).length := by
  by_cases hr : child_range P ctx = []
  · exact ⟨[], [], by simp [predict, hr], by simp [hr], by simp, by simp, by simp [hr]⟩
  · have hk' : 1 ≤ k := by
      rcases hk with h | h
      · exact h
      · exact absurd h hr
    obtain ⟨heap, rest, e1, g1, g2, g3, g4⟩ :=
      score_loop_spec H hH P ctx k hk' bytes (child_range P ctx) hb [] [] [] []
        (is_heap_nil _) (List.Perm.refl _) (by simp) (by simp)
    simp only [List.nil_append, List.length_nil, Nat.zero_add] at e1 g2 g4
    have hmem : ∀ t, t ∈ heap ++ rest →
        t.2 ∈ child_range P ctx ∧ t.1 = (P.model_.score ctx (bytes t.2)).1 := by
      intro t ht
      obtain ⟨c, hc, rfl⟩ := List.mem_map.mp (g2.subset ht)
      exact ⟨hc, rfl⟩
    obtain ⟨L, hL1, hL2, hL3⟩ := export_loop_spec H hH P str heap.length heap
      (List.replicate heap.length (([] : std_string), (default : α))) g1 rfl
      (by simp) (fun t ht => hs t.2 (hmem t (List.mem_append_left _ ht)).1)
    have hLmem : ∀ t, t ∈ L → t.1 = (P.model_.score ctx (bytes t.2)).1 :=
      fun t ht => (hmem t (List.mem_append_left _ (hL1.subset ht))).2
    refine ⟨L.map Prod.snd, rest.map Prod.snd, ?_, ?_, ?_, ?_, ?_⟩
    · simp only [predict, hr, if_false, e1, priority_queue.size, List.length_replicate, hL3]
      simp only [List.drop_replicate, Nat.sub_self, List.replicate_zero, List.append_nil,
        List.map_map]
      congr 2
      apply List.map_congr_left
      intro t ht
      simp only [Function.comp_apply]
      rw [hLmem t ht]
    · rw [← List.map_append]
      have h1 : ((L ++ rest).map Prod.snd).Perm ((heap ++ rest).map Prod.snd) :=
        (hL1.append_right rest).map _
      refine h1.trans ((g2.map _).trans ?_)
      rw [List.map_map]
      simp [Function.comp_def]
    · rw [List.map_map, List.pairwise_map]
      refine hL2.imp_of_mem ?_
      intro a b ha hb hab
      simp only [Function.comp_apply]
      rw [← hLmem a ha, ← hLmem b hb]
      exact hab
    · intro r hr' c hc
      obtain ⟨tr, htr, rfl⟩ := List.mem_map.mp hr'
      obtain ⟨tc, htc, rfl⟩ := List.mem_map.mp hc
      rw [← (hmem tr (List.mem_append_right _ htr)).2, ← hLmem tc htc]
      exact g3 tr htr tc (hL1.subset htc)
    · rw [List.length_map, hL1.length_eq, g4]

theorem score_step_ok_bytes (H : heap_algorithms (Item α)) (P : TriePredictor σ α) (ctx : σ)
    (k : Nat) (acc acc' : priority_queue (Item α) × List (ScoreCall σ)) (c : Nat)
    (h : score_step H P ctx k acc c = .ok acc') : c < P.vocab_bytes_.length := by
  by_contra hc
  have hnone : P.vocab_bytes_[c]? = none := List.getElem?_eq_none (by omega)
  simp [score_step, hnone] at h

theorem score_loop_ok_bytes (H : heap_algorithms (Item α)) (P : TriePredictor σ α) (ctx : σ)
    (k : Nat) (cands : List Nat) :
    ∀ (acc acc' : priority_queue (Item α) × List (ScoreCall σ)),
      score_loop H P ctx k cands acc = .ok acc' → ∀ c, c ∈ cands → c < P.vocab_bytes_.length := by
  induction cands with
  | nil =>
    intro _ _ _ c hc
    simp at hc
  | cons c0 it ih =>
    intro acc acc' h c hc
    simp only [score_loop] at h
    cases hstep : score_step H P ctx k acc c0 with
    | error e => simp [hstep] at h
    | ok acc1 =>
      rw [hstep] at h
      rcases List.mem_cons.mp hc with rfl | hc'
      · exact score_step_ok_bytes H P ctx k acc acc1 c hstep
      · exact ih acc1 acc' h c hc'

/-- With `k = 0` the first iteration of the scoring loop reads the top of the empty
heap, whatever the candidate. -/
theorem score_loop_zero (H : heap_algorithms (Item α)) (P : TriePredictor σ α) (ctx : σ)
    (c : Nat) (it : List Nat) (hc : c < P.vocab_bytes_.length) :
    score_loop H P ctx 0 (c :: it) ([], []) = .error Fault.top_on_empty_heap := by
  have hsome : P.vocab_bytes_[c]? = some P.vocab_bytes_[c] := List.getElem?_eq_getElem hc
  simp [score_loop, score_step, hsome, priority_queue.size, priority_queue.top]

/-- When `predict` returns, either `k ≥ 1` or there was no candidate, and every
candidate indexed `vocab_bytes_` in range. -/
theorem predict_ok_inv [Inhabited α] (H : heap_algorithms (Item α)) (P : TriePredictor σ α)
    (ctx : σ) (k : Nat) (r : Run σ (List (std_string × α))) (h : predict H P ctx k = .ok r) :
    (1 ≤ k ∨ child_range P ctx = []) ∧ ∀ c, c ∈ child_range P ctx → c < P.vocab_bytes_.length := by
  by_cases hr : child_range P ctx = []
  · refine ⟨Or.inr hr, ?_⟩
    intro c hc
    rw [hr] at hc
    simp at hc
  · simp only [predict, hr, if_false] at h
    cases hloop : score_loop H P ctx k (child_range P ctx) ([], []) with
    | error e => simp [hloop] at h
    | ok acc =>
      have hb := score_loop_ok_bytes H P ctx k (child_range P ctx) _ _ hloop
      refine ⟨Or.inl ?_, hb⟩
      rcases Nat.eq_zero_or_pos k with h0 | hpos
      · exfalso
        subst h0
        cases hcr : child_range P ctx with
        | nil => exact hr hcr
        | cons c it =>
          rw [hcr] at hloop hb
          rw [score_loop_zero H P ctx c it (hb c (List.mem_cons_self _ _))] at hloop
          cases hloop
      · exact hpos

/-- The general description of `predict`, for a constructed predictor whose candidates
are vocabulary ids. -/
theorem predict_ctor_spec [Inhabited α] (H : heap_algorithms (Item α)) (hH : H.conforms cmp)
    (model : Model σ α) (ctx : σ) (k : Nat)
    (hk : 1 ≤ k ∨ child_range (TriePredictor.ctor model) ctx = [])
    (hV : ∀ c, c ∈ child_range (TriePredictor.ctor model) ctx → c < model.vocab_size) :
    ∃ kept rest : List Nat,
      predict H (TriePredictor.ctor model) ctx k =
        .ok { value := kept.map (fun c => (string_of_range (model.vocab_byte_range c),
                (model.score ctx (model.vocab_byte_range c)).1)),
              calls := (child_range (TriePredictor.ctor model) ctx).map
                (fun c => (ctx, model.vocab_byte_range c)) } ∧
      (kept ++ rest).Perm (child_range (TriePredictor.ctor model) ctx) ∧
      (kept.map (fun c => (model.score ctx (model.vocab_byte_range c)).1)).Pairwise
        (fun a b => a ≥ b) ∧
      (∀ r, r ∈ rest → ∀ c, c ∈ kept →
        (model.score ctx (model.vocab_byte_range r)).1 ≤
          (model.score ctx (model.vocab_byte_range c)).1) ∧
      kept.length = min k (child_range (TriePredictor.ctor model) ctx).length :=
  predict_spec H hH (TriePredictor.ctor model) ctx k model.vocab_byte_range
    (fun c => string_of_range (model.vocab_byte_range c)) hk
    (fun c hc => ctor_vocab_bytes_get model c (hV c hc))
    (fun c hc => ctor_vocab_strings_get model c (hV c hc))

end selection

/-! ## Auxiliary facts for the claims -/

section auxiliary

variable {σ α : Type} [LinearOrder α]

/-- A descending list whose complement holds no larger value is the head of the
descending sort of the whole. -/
theorem eq_take_of_split (A R all : List α) (hA : A.Pairwise (fun a b => a ≥ b))
    (hperm : (A ++ R).Perm all) (hlow : ∀ r, r ∈ R → ∀ a, a ∈ A → r ≤ a) :
    A = (all.insertionSort (fun a b => a ≥ b)).take A.length := by
  have hs : (A ++ R.insertionSort (fun a b => a ≥ b)).Sorted (fun a b => a ≥ b) := by
    refine List.pairwise_append.mpr ⟨hA, List.sorted_insertionSort _ R, ?_⟩
    intro a ha b hb
    exact hlow b ((List.perm_insertionSort _ R).subset hb) a ha
  have hp : (A ++ R.insertionSort (fun a b => a ≥ b)).Perm
      (all.insertionSort (fun a b => a ≥ b)) :=
    ((List.perm_insertionSort _ R).append_left A).trans
      (hperm.trans (List.perm_insertionSort _ all).symm)
  have heq := List.eq_of_perm_of_sorted hp hs (List.sorted_insertionSort _ all)
  rw [← heq, List.take_left]

/-- The length of what `predict` returns, whenever it reaches its return. -/
theorem predict_length [Inhabited α] (H : heap_algorithms (Item α)) (hH : H.conforms cmp)
    (model : Model σ α) (ctx : σ) (k : Nat)
    (hk : 1 ≤ k ∨ child_range (TriePredictor.ctor model) ctx = [])
    (hV : ∀ c, c ∈ child_range (TriePredictor.ctor model) ctx → c < model.vocab_size) :
    ∃ r, predict H (TriePredictor.ctor model) ctx k = .ok r ∧
      r.value.length = min k (child_range (TriePredictor.ctor model) ctx).length := by
  obtain ⟨kept, rest, h1, _, _, _, h5⟩ := predict_ctor_spec H hH model ctx k hk hV
  exact ⟨_, h1, by simpa using h5⟩

end auxiliary

/-! ## The claims -/

section claims

/-- C1. Top-k correctness of `predict`: for a context of positive length, `k ≥ 1` and
successors that are vocabulary ids, `predict` returns the entries of a list `kept` of
candidates such that every candidate not returned (`rest`) scores, against the
caller's context, no more than any returned entry, and the multiset of the returned
log-probabilities is that of the `min k C` largest of the `C` candidate scores. -/
theorem predict_top_k {σ α : Type} [LinearOrder α] [Inhabited α]
    (H : heap_algorithms (Item α)) (hH : H.conforms cmp) (model : Model σ α) (ctx : σ) (k : Nat)
    (hlen : 0 < model.length ctx) (hk : 1 ≤ k)
    (hV : ∀ c, c ∈ model.array0_range (model.words_back ctx) → c < model.vocab_size) :
    ∃ (r : Run σ (List (std_string × α))) (kept rest : List Nat),
      predict H (TriePredictor.ctor model) ctx k = .ok r ∧
      r.value = kept.map (fun c => (string_of_range (model.vocab_byte_range c),
        (model.score ctx (model.vocab_byte_range c)).1)) ∧
      (kept ++ rest).Perm (model.array0_range (model.words_back ctx)) ∧
      (∀ c, c ∈ rest → ∀ e, e ∈ r.value →
        (model.score ctx (model.vocab_byte_range c)).1 ≤ e.2) ∧
      (↑(r.value.map Prod.snd) : Multiset α) =
        ↑((((model.array0_range (model.words_back ctx)).map
            (fun c => (model.score ctx (model.vocab_byte_range c)).1)).insertionSort
              (fun a b => a ≥ b)).take
            (min k (model.array0_range (model.words_back ctx)).length)) := by
  have hcr : child_range (TriePredictor.ctor model) ctx =
      model.array0_range (model.words_back ctx) := by
    rw [child_range_ctor, if_neg (by omega)]
  obtain ⟨kept, rest, h1, h2, h3, h4, h5⟩ :=
    predict_ctor_spec H hH model ctx k (Or.inl hk) (by rw [hcr]; exact hV)
  rw [hcr] at h2 h5
  refine ⟨_, kept, rest, h1, rfl, h2, ?_, ?_⟩
  · intro c hc e he
    obtain ⟨c', hc', rfl⟩ := List.mem_map.mp he
    exact h4 c hc c' hc'
  · have hsplit := eq_take_of_split
      (kept.map (fun c => (model.score ctx (model.vocab_byte_range c)).1))
      (rest.map (fun c => (model.score ctx (model.vocab_byte_range c)).1))
      ((model.array0_range (model.words_back ctx)).map
        (fun c => (model.score ctx (model.vocab_byte_range c)).1)) h3
      (by rw [← List.map_append]; exact h2.map _)
      (by
        intro r hr a ha
        obtain ⟨cr, hcr', rfl⟩ := List.mem_map.mp hr
        obtain ⟨ca, hca, rfl⟩ := List.mem_map.mp ha
        exact h4 cr hcr' ca hca)
    rw [List.length_map, h5] at hsplit
    simp only [List.map_map]
    rw [← hsplit]
    rfl

/-- C2. Result length of `predict`: at `k = 0`, for the demo context whose last word
has four successors, `predict` does not return a sequence of length `min 0 4`: with
any heap algorithms its first iteration reads the top of the empty heap. -/
theorem predict_length_fails_at_zero :
    (child_range demo_predictor [0]).length = 4 ∧
      ∀ H : heap_algorithms (Item Int),
        predict H demo_predictor [0] 0 = .error Fault.top_on_empty_heap := by
  refine ⟨by decide, ?_⟩
  intro H
  have hcr : child_range demo_predictor [0] = [1, 2, 3, 4] := by decide
  have hloop := score_loop_zero H demo_predictor [0] 1 [2, 3, 4] (by decide)
  simp [predict, hcr, hloop]

/-- C3. Best-first order of `predict`: for every context and every `k`, `predict`
returns whenever `k ≥ 1` or there is no candidate (the candidates being vocabulary
ids), and whatever it returns is descending by log-probability at every adjacent pair
of indices. -/
theorem predict_sorted {σ α : Type} [LinearOrder α] [Inhabited α]
    (H : heap_algorithms (Item α)) (hH : H.conforms cmp) (model : Model σ α) (ctx : σ) (k : Nat) :
    ((1 ≤ k ∨ child_range (TriePredictor.ctor model) ctx = []) →
      (∀ c, c ∈ child_range (TriePredictor.ctor model) ctx → c < model.vocab_size) →
      ∃ r, predict H (TriePredictor.ctor model) ctx k = .ok r) ∧
    ∀ r, predict H (TriePredictor.ctor model) ctx k = .ok r →
      ∀ (i : Nat) (a b : std_string × α),
        r.value[i]? = some a → r.value[i + 1]? = some b → a.2 ≥ b.2 := by
  constructor
  · intro hk hV
    obtain ⟨kept, rest, h1, _⟩ := predict_ctor_spec H hH model ctx k hk hV
    exact ⟨_, h1⟩
  · intro r hr i a b ha hb
    obtain ⟨hk, hV⟩ := predict_ok_inv H (TriePredictor.ctor model) ctx k r hr
    rw [ctor_vocab_bytes_length] at hV
    obtain ⟨kept, rest, h1, _, h3, _, _⟩ := predict_ctor_spec H hH model ctx k hk hV
    rw [h1] at hr
    injection hr with hr
    subst hr
    simp only [List.getElem?_map] at ha hb
    cases hi : kept[i]? with
    | none => simp [hi] at ha
    | some ci =>
      cases hj : kept[i + 1]? with
      | none => simp [hj] at hb
      | some cj =>
        simp only [hi, hj, Option.map_some', Option.some.injEq] at ha hb
        subst ha
        subst hb
        obtain ⟨hi', rfl⟩ := List.getElem?_eq_some.mp hi
        obtain ⟨hj', rfl⟩ := List.getElem?_eq_some.mp hj
        have := List.pairwise_iff_getElem.mp h3 i (i + 1) (by simpa using hi')
          (by simpa using hj') (by omega)
        simpa using this

/-- C4. `k = 0`: when the context has at least one candidate (the candidates being
vocabulary ids), `predict(ctx, 0)` does not return the empty sequence: the guard
`heap.size() < k` fails in the first iteration and the top of the empty heap is
read. -/
theorem predict_zero_k_faults {σ α : Type} [LinearOrder α] [Inhabited α]
    (H : heap_algorithms (Item α)) (model : Model σ α) (ctx : σ)
    (hne : child_range (TriePredictor.ctor model) ctx ≠ [])
    (hV : ∀ c, c ∈ child_range (TriePredictor.ctor model) ctx → c < model.vocab_size) :
    predict H (TriePredictor.ctor model) ctx 0 = .error Fault.top_on_empty_heap := by
  cases hcr : child_range (TriePredictor.ctor model) ctx with
  | nil => exact absurd hcr hne
  | cons c it =>
    have hc : c < (TriePredictor.ctor model).vocab_bytes_.length := by
      rw [ctor_vocab_bytes_length]
      exact hV c (by rw [hcr]; exact List.mem_cons_self _ _)
    have hloop := score_loop_zero H (TriePredictor.ctor model) ctx c it hc
    simp [predict, hcr, hloop]

/-- C5. Empty context: for every state of length 0 and every `k`, `predict` returns the
empty sequence and scores no candidate, whatever the last entry of the word window
and whatever the predictor and the heap algorithms. -/
theorem predict_empty_context {σ α : Type} [LinearOrder α] [Inhabited α]
    (H : heap_algorithms (Item α)) (P : TriePredictor σ α) (ctx : σ) (k : Nat)
    (h : P.model_.length ctx = 0) :
    predict H P ctx k = .ok { value := [], calls := [] } := by
  simp [predict, child_range, h]

/-- C6. Out-of-vocabulary feed: for every state and every word that is not a key of
the vocabulary map, `feed` returns without fault, leaves the state equal to its value
before the call and makes no call of the model's score operation. -/
theorem feed_out_of_vocabulary {σ α : Type} (P : TriePredictor σ α) (st : σ) (w : std_string)
    (h : w ∉ P.vocab_map_.map Prod.fst) :
    feed P st w = .ok { value := st, calls := [] } :=
  feed_oov P st w h

/-- C7. Vocabulary round trip, string side: after construction, for every word that
`lookup` finds, the string cached under the id found is the word. -/
theorem stringOf_lookup {σ α : Type} (model : Model σ α) (w : std_string) (id : Nat)
    (h : (TriePredictor.ctor model).lookup w = some id) :
    (TriePredictor.ctor model).stringOf id = some w := by
  obtain ⟨h1, h2, _⟩ := (ctor_lookup_eq_some model w id).mp h
  rw [TriePredictor.stringOf, ctor_vocab_strings_get model id h1, h2]

/-- C8, as stated, fails: a model that supplies the same byte span for ids 0 and 1
yields a cache in which `lookup(stringOf(1))` is 0. -/
theorem lookup_stringOf_counterexample :
    ¬ ∀ (model : Model (List Nat) Int) (id : Nat), id < model.vocab_size →
        ∃ s, (TriePredictor.ctor model).stringOf id = some s ∧
          (TriePredictor.ctor model).lookup s = some id := by
  intro hall
  obtain ⟨s, h1, h2⟩ := hall twin_model 1 (by decide)
  have hs : (TriePredictor.ctor twin_model).stringOf 1 = some [97] := by decide
  rw [hs] at h1
  injection h1 with h1
  subst h1
  have hl : (TriePredictor.ctor twin_model).lookup [97] = some 0 := by decide
  rw [hl] at h2
  cases h2

/-- C8, amended. Vocabulary agreement, id side: when the byte spans the model supplies
for the ids of `[0, V)` are pairwise distinct, `lookup(stringOf(id))` returns exactly
`id` for every id in `[0, V)`. -/
theorem lookup_stringOf_of_distinct {σ α : Type} (model : Model σ α)
    (hdist : ∀ i, i < model.vocab_size → ∀ j, j < model.vocab_size →
      model.vocab_byte_range i = model.vocab_byte_range j → i = j)
    (id : Nat) (hid : id < model.vocab_size) :
    ∃ s, (TriePredictor.ctor model).stringOf id = some s ∧
      (TriePredictor.ctor model).lookup s = some id := by
  refine ⟨string_of_range (model.vocab_byte_range id), ?_, ?_⟩
  · rw [TriePredictor.stringOf, ctor_vocab_strings_get model id hid]
  · rw [ctor_lookup_eq_some]
    refine ⟨hid, rfl, ?_⟩
    intro j hj hjw
    have := hdist j (by omega) id hid hjw
    omega

/-- C9. Candidates come only from the last word's successors: after `feed(state, w)`
with `w` in the vocabulary under id `id`, the model's score having made `id` the last
word of the state with positive length, a subsequent `predict` returns whenever
`k ≥ 1` or the range is empty (the successors being vocabulary ids), every word it
returns is the cached string of an id of the order-0 successor range of `id`, and the
calls of the score operation are exactly one per id of that range, in order. -/
theorem predict_after_feed {σ α : Type} [LinearOrder α] [Inhabited α]
    (H : heap_algorithms (Item α)) (hH : H.conforms cmp) (model : Model σ α) (st : σ)
    (w : std_string) (id k : Nat)
    (hw : (TriePredictor.ctor model).lookup w = some id)
    (hlast : model.words_back (model.score st (model.vocab_byte_range id)).2.2 = id)
    (hlen : 0 < model.length (model.score st (model.vocab_byte_range id)).2.2) :
    ∃ r1, feed (TriePredictor.ctor model) st w = .ok r1 ∧
      ((1 ≤ k ∨ model.array0_range id = []) →
        (∀ c, c ∈ model.array0_range id → c < model.vocab_size) →
        ∃ r, predict H (TriePredictor.ctor model) r1.value k = .ok r) ∧
      ∀ r, predict H (TriePredictor.ctor model) r1.value k = .ok r →
        (∀ e, e ∈ r.value →
          ∃ c, c ∈ model.array0_range id ∧ (TriePredictor.ctor model).stringOf c = some e.1) ∧
        r.calls = (model.array0_range id).map (fun c => (r1.value, model.vocab_byte_range c)) := by
  obtain ⟨hid, _, _⟩ := (ctor_lookup_eq_some model w id).mp hw
  have hfeed : feed (TriePredictor.ctor model) st w =
      .ok { value := (model.score st (model.vocab_byte_range id)).2.2,
            calls := [(st, model.vocab_byte_range id)] } := by
    unfold TriePredictor.lookup at hw
    simp [feed, hw, ctor_vocab_bytes_get model id hid, ctor_model]
  refine ⟨_, hfeed, ?_, ?_⟩
  all_goals simp only
  all_goals
    have hcr : child_range (TriePredictor.ctor model)
        (model.score st (model.vocab_byte_range id)).2.2 = model.array0_range id := by
      rw [child_range_ctor, if_neg (by omega), hlast]
  · intro hk hV
    obtain ⟨kept, rest, h1, _⟩ := predict_ctor_spec H hH model
      (model.score st (model.vocab_byte_range id)).2.2 k (by rw [hcr]; exact hk)
      (by rw [hcr]; exact hV)
    exact ⟨_, h1⟩
  · intro r hr
    obtain ⟨hk, hV⟩ := predict_ok_inv H (TriePredictor.ctor model) _ k r hr
    rw [ctor_vocab_bytes_length] at hV
    obtain ⟨kept, rest, h1, h2, _, _, _⟩ := predict_ctor_spec H hH model
      (model.score st (model.vocab_byte_range id)).2.2 k hk hV
    rw [h1] at hr
    injection hr with hr
    subst hr
    rw [hcr] at h2 hV
    refine ⟨?_, ?_⟩
    · intro e he
      obtain ⟨c, hc, rfl⟩ := List.mem_map.mp he
      have hc' : c ∈ model.array0_range id := h2.subset (List.mem_append_left _ hc)
      refine ⟨c, hc', ?_⟩
      rw [TriePredictor.stringOf, ctor_vocab_strings_get model c (hV c hc')]
    · simp only [hcr]

/-- C10. `predict` after an out-of-vocabulary feed: for every state, every `k` and
every word that is not a key of the vocabulary map, `feed` returns and `predict` on
the state it leaves gives exactly what `predict` gives on the state before. -/
theorem predict_after_oov_feed {σ α : Type} [LinearOrder α] [Inhabited α]
    (H : heap_algorithms (Item α)) (P : TriePredictor σ α) (st : σ) (u : std_string) (k : Nat)
    (h : u ∉ P.vocab_map_.map Prod.fst) :
    ∃ r1, feed P st u = .ok r1 ∧ predict H P r1.value k = predict H P st k :=
  ⟨_, feed_oov P st u h, rfl⟩

/-! ## The claims at concrete inputs

The demo model, the context `[0]` (the word "the" fed, successors 1, 2, 3, 4 scoring
-4, -4, -2, -4) and the sorting implementation of the heap algorithms. -/

theorem predict_top_k_witness :
    ∃ (r : Run (List Nat) (List (std_string × Int))) (kept rest : List Nat),
      predict (sorting_heap Int) (TriePredictor.ctor demo_model) [0] 2 = .ok r ∧
      r.value = kept.map (fun c => (string_of_range (demo_model.vocab_byte_range c),
        (demo_model.score [0] (demo_model.vocab_byte_range c)).1)) ∧
      (kept ++ rest).Perm (demo_model.array0_range (demo_model.words_back [0])) ∧
      (∀ c, c ∈ rest → ∀ e, e ∈ r.value →
        (demo_model.score [0] (demo_model.vocab_byte_range c)).1 ≤ e.2) ∧
      (↑(r.value.map Prod.snd) : Multiset Int) =
        ↑((((demo_model.array0_range (demo_model.words_back [0])).map
            (fun c => (demo_model.score [0] (demo_model.vocab_byte_range c)).1)).insertionSort
              (fun a b => a ≥ b)).take
            (min 2 (demo_model.array0_range (demo_model.words_back [0])).length)) :=
  predict_top_k (sorting_heap Int) sorting_heap_conforms demo_model [0] 2
    (by decide) (by decide) (by decide)

theorem predict_sorted_witness :
    (∃ r, predict (sorting_heap Int) (TriePredictor.ctor demo_model) [0] 2 = .ok r) ∧
    ∀ r, predict (sorting_heap Int) (TriePredictor.ctor demo_model) [0] 2 = .ok r →
      ∀ (i : Nat) (a b : std_string × Int),
        r.value[i]? = some a → r.value[i + 1]? = some b → a.2 ≥ b.2 :=
  ⟨(predict_sorted (sorting_heap Int) sorting_heap_conforms demo_model [0] 2).1
      (Or.inl (by decide)) (by decide),
    (predict_sorted (sorting_heap Int) sorting_heap_conforms demo_model [0] 2).2⟩

theorem predict_zero_k_faults_witness :
    child_range (TriePredictor.ctor demo_model) [0] = [1, 2, 3, 4] ∧
      predict (sorting_heap Int) (TriePredictor.ctor demo_model) [0] 0 =
        .error Fault.top_on_empty_heap :=
  ⟨by decide,
    predict_zero_k_faults (sorting_heap Int) demo_model [0] (by decide) (by decide)⟩

theorem predict_empty_context_witness :
    demo_model.words_back [] = 0 ∧ demo_model.array0_range 0 = [1, 2, 3, 4] ∧
      predict (sorting_heap Int) (TriePredictor.ctor demo_model) [] 3 =
        .ok { value := [], calls := [] } :=
  ⟨by decide, by decide,
    predict_empty_context (sorting_heap Int) (TriePredictor.ctor demo_model) [] 3 (by decide)⟩

theorem feed_out_of_vocabulary_witness :
    feed (TriePredictor.ctor demo_model) [0, 1] [120, 121, 122, 49, 50, 51] =
      .ok { value := [0, 1], calls := [] } :=
  feed_out_of_vocabulary (TriePredictor.ctor demo_model) [0, 1] [120, 121, 122, 49, 50, 51]
    (by decide)

theorem stringOf_lookup_witness :
    (TriePredictor.ctor demo_model).lookup [102, 111, 120] = some 3 ∧
      (TriePredictor.ctor demo_model).stringOf 3 = some [102, 111, 120] :=
  ⟨by decide, stringOf_lookup demo_model [102, 111, 120] 3 (by decide)⟩

theorem lookup_stringOf_of_distinct_witness :
    ∃ s, (TriePredictor.ctor demo_model).stringOf 4 = some s ∧
      (TriePredictor.ctor demo_model).lookup s = some 4 :=
  lookup_stringOf_of_distinct demo_model (by decide) 4 (by decide)

theorem predict_after_feed_witness :
    ∃ r1, feed (TriePredictor.ctor demo_model) [0, 1] [98, 114, 111, 119, 110] = .ok r1 ∧
      ((1 ≤ 2 ∨ demo_model.array0_range 2 = []) →
        (∀ c, c ∈ demo_model.array0_range 2 → c < demo_model.vocab_size) →
        ∃ r, predict (sorting_heap Int) (TriePredictor.ctor demo_model) r1.value 2 = .ok r) ∧
      ∀ r, predict (sorting_heap Int) (TriePredictor.ctor demo_model) r1.value 2 = .ok r →
        (∀ e, e ∈ r.value →
          ∃ c, c ∈ demo_model.array0_range 2 ∧
            (TriePredictor.ctor demo_model).stringOf c = some e.1) ∧
        r.calls = (demo_model.array0_range 2).map
          (fun c => (r1.value, demo_model.vocab_byte_range c)) :=
  predict_after_feed (sorting_heap Int) sorting_heap_conforms demo_model [0, 1]
    [98, 114, 111, 119, 110] 2 2 (by decide) (by decide) (by decide)

theorem predict_after_oov_feed_witness :
    ∃ r1, feed (TriePredictor.ctor demo_model) [0] [120, 121, 122, 49, 50, 51] = .ok r1 ∧
      predict (sorting_heap Int) (TriePredictor.ctor demo_model) r1.value 3 =
        predict (sorting_heap Int) (TriePredictor.ctor demo_model) [0] 3 :=
  predict_after_oov_feed (sorting_heap Int) (TriePredictor.ctor demo_model) [0]
    [120, 121, 122, 49, 50, 51] 3 (by decide)

/-! ## Further auxiliary facts -/

/-- The scoring loop over a concatenation runs the loop over the first part, then over
the second part from the state reached. -/
theorem score_loop_append {σ α : Type} [LinearOrder α] (H : heap_algorithms (Item α))
    (P : TriePredictor σ α) (ctx : σ) (k : Nat) (done more : List Nat) :
    ∀ acc : priority_queue (Item α) × List (ScoreCall σ),
      score_loop H P ctx k (done ++ more) acc =
        match score_loop H P ctx k done acc with
        | .error e => .error e
        | .ok acc' => score_loop H P ctx k more acc' := by
  induction done with
  | nil =>
    intro acc
    simp [score_loop]
  | cons c it ih =>
    intro acc
    simp only [List.cons_append, score_loop]
    cases hstep : score_step H P ctx k acc c with
    | error e => simp
    | ok acc1 => simpa using ih acc1

/-- The feed of a word found under `id`: one call of the model's score on the cached
byte span of `id`, whose advanced state is kept. -/
theorem feed_ctor_found {σ α : Type} (model : Model σ α) (st : σ) (w : std_string) (id : Nat)
    (hw : (TriePredictor.ctor model).lookup w = some id) :
    feed (TriePredictor.ctor model) st w =
      .ok { value := (model.score st (model.vocab_byte_range id)).2.2,
            calls := [(st, model.vocab_byte_range id)] } := by
  obtain ⟨hid, _, _⟩ := (ctor_lookup_eq_some model w id).mp hw
  unfold TriePredictor.lookup at hw
  simp [feed, hw, ctor_vocab_bytes_get model id hid, ctor_model]

/-- The constructed predictor never faults in `feed`. -/
theorem feed_ctor_ok {σ α : Type} (model : Model σ α) (st : σ) (w : std_string) :
    ∃ r, feed (TriePredictor.ctor model) st w = .ok r := by
  cases hw : (TriePredictor.ctor model).lookup w with
  | none =>
    unfold TriePredictor.lookup at hw
    exact ⟨{ value := st, calls := [] }, by simp [feed, hw]⟩
  | some id => exact ⟨_, feed_ctor_found model st w id hw⟩

/-- With a single candidate and `k ≥ 1`, `predict` returns that candidate. -/
theorem predict_single {σ α : Type} [LinearOrder α] [Inhabited α]
    (H : heap_algorithms (Item α)) (hH : H.conforms cmp) (model : Model σ α) (ctx : σ)
    (k c : Nat) (hlen : 0 < model.length ctx)
    (hone : model.array0_range (model.words_back ctx) = [c])
    (hc : c < model.vocab_size) (hk : 1 ≤ k) :
    predict H (TriePredictor.ctor model) ctx k =
      .ok { value := [(string_of_range (model.vocab_byte_range c),
              (model.score ctx (model.vocab_byte_range c)).1)],
            calls := [(ctx, model.vocab_byte_range c)] } := by
  have hcr : child_range (TriePredictor.ctor model) ctx = [c] := by
    rw [child_range_ctor, if_neg (by omega), hone]
  obtain ⟨kept, rest, h1, h2, _, _, h5⟩ := predict_ctor_spec H hH model ctx k (Or.inl hk)
    (by
      rw [hcr]
      intro c' hc'
      rw [List.mem_singleton] at hc'
      rw [hc']
      exact hc)
  rw [hcr] at h1 h2 h5
  have hk1 : kept.length = 1 := by
    rw [h5]
    simp only [List.length_singleton]
    omega
  obtain ⟨c', rfl⟩ := List.length_eq_one.mp hk1
  have hmem : c' ∈ [c] := h2.subset (by simp)
  rw [List.mem_singleton] at hmem
  subst hmem
  simpa using h1

/-- The size of the heap after the scoring loop, started on the empty heap with
`k ≥ 1`, over candidates that index `vocab_bytes_` in range. -/
theorem score_loop_size {σ α : Type} [LinearOrder α] (H : heap_algorithms (Item α))
    (hH : H.conforms cmp) (P : TriePredictor σ α) (ctx : σ) (k : Nat) (hk : 1 ≤ k)
    (cands : List Nat) (hb : ∀ c, c ∈ cands → c < P.vocab_bytes_.length) :
    ∃ acc, score_loop H P ctx k cands ([], []) = .ok acc ∧
      priority_queue.size acc.1 = min k cands.length := by
  have hb' : ∀ c, c ∈ cands → P.vocab_bytes_[c]? = some (P.vocab_bytes_.getD c []) := by
    intro c hc
    have hlt := hb c hc
    simp [List.getD_eq_getElem?_getD, List.getElem?_eq_getElem hlt]
  obtain ⟨heap, rest, e1, _, _, _, g4⟩ :=
    score_loop_spec H hH P ctx k hk (fun c => P.vocab_bytes_.getD c []) cands hb' [] [] [] []
      (is_heap_nil _) (List.Perm.refl _) (by simp) (by simp)
  exact ⟨_, e1, by simpa [priority_queue.size] using g4⟩

/-! ## The claims, continued -/

/-- C11. Single-successor prediction: for every context of positive length whose last
word has exactly one successor `c` (a vocabulary id) and every `k ≥ 1`, `predict`
returns exactly the one entry `(stringOf(c), score(ctx, bytes(c)))`, having scored
`c` once.  In Scenario A (vocabulary the:0, quick:1, brown:2, fox:3, jumps:4, `jumps`
the only successor of `fox`, context fed the, quick, brown, fox) `predict(ctx, 3)`
returns exactly the entry of `jumps` with -0.1. -/
theorem predict_single_successor :
    (∀ (σ α : Type) [LinearOrder α] [Inhabited α] (H : heap_algorithms (Item α))
        (model : Model σ α) (ctx : σ) (k c : Nat),
      H.conforms cmp → 0 < model.length ctx →
      model.array0_range (model.words_back ctx) = [c] → c < model.vocab_size → 1 ≤ k →
      ∃ s, (TriePredictor.ctor model).stringOf c = some s ∧
        predict H (TriePredictor.ctor model) ctx k =
          .ok { value := [(s, (model.score ctx (model.vocab_byte_range c)).1)],
                calls := [(ctx, model.vocab_byte_range c)] }) ∧
    (TriePredictor.ctor scenario_model).vocab_map_ =
      [([116, 104, 101], 0), ([113, 117, 105, 99, 107], 1), ([98, 114, 111, 119, 110], 2),
        ([102, 111, 120], 3), ([106, 117, 109, 112, 115], 4)] ∧
    scenario_model.array0_range 3 = [4] ∧
    ∀ H : heap_algorithms (Item ℚ), H.conforms cmp →
      ∃ fed, feed_words (TriePredictor.ctor scenario_model) []
          [[116, 104, 101], [113, 117, 105, 99, 107], [98, 114, 111, 119, 110],
            [102, 111, 120]] = .ok fed ∧
        predict H (TriePredictor.ctor scenario_model) fed.value 3 =
          .ok { value := [([106, 117, 109, 112, 115], -1 / 10)],
                calls := [(fed.value, [106, 117, 109, 112, 115])] } := by
  refine ⟨?_, by decide, by decide, ?_⟩
  · intro σ α _ _ H model ctx k c hH hlen hone hc hk
    refine ⟨string_of_range (model.vocab_byte_range c), ?_, ?_⟩
    · rw [TriePredictor.stringOf, ctor_vocab_strings_get model c hc]
    · exact predict_single H hH model ctx k c hlen hone hc hk
  · intro H hH
    refine ⟨{ value := [0, 1, 2, 3],
              calls := [([], [116, 104, 101]), ([0], [113, 117, 105, 99, 107]),
                ([0, 1], [98, 114, 111, 119, 110]), ([0, 1, 2], [102, 111, 120])] },
      by decide, ?_⟩
    have h := predict_single H hH scenario_model [0, 1, 2, 3] 3 4 (by decide) (by decide)
      (by decide) (by decide)
    rw [h]
    rfl

/-- C12. No operation fails: in the demo model every id of every successor range is a
vocabulary id, yet `predict` with `k = 0` on the context `[0]` reaches an error
branch with any heap algorithms: `top` is invoked on the empty heap in the scoring
loop. -/
theorem predict_fault_in_range :
    (∀ id c, c ∈ demo_model.array0_range id → c < demo_model.vocab_size) ∧
      ∀ H : heap_algorithms (Item Int),
        predict H (TriePredictor.ctor demo_model) [0] 0 = .error Fault.top_on_empty_heap := by
  constructor
  · intro id
    match id with
    | 0 => decide
    | 1 => decide
    | 2 => decide
    | 3 => decide
    | _ + 4 =>
      intro c hc
      simp [demo_model] at hc
  · intro H
    have hcr : child_range (TriePredictor.ctor demo_model) [0] = [1, 2, 3, 4] := by decide
    have hloop := score_loop_zero H (TriePredictor.ctor demo_model) [0] 1 [2, 3, 4] (by decide)
    simp [predict, hcr, hloop]

/-- C13. Scratch-copy isolation in `predict`: `predict` reads the caller's state and
returns no state; it returns whenever `k ≥ 1` or there is no candidate (the candidates
being vocabulary ids), and in whatever it returns every call of the model's score
receives the caller's original state (one call per candidate of the range, in order),
every entry is `(stringOf(c), lp)` for a candidate `c` of the range with `lp` the
model's score of the byte span of `c` against that original state, and the candidates
of the entries are pairwise distinct when the range has no repeated id. -/
theorem predict_scratch_isolation {σ α : Type} [LinearOrder α] [Inhabited α]
    (H : heap_algorithms (Item α)) (hH : H.conforms cmp) (model : Model σ α) (ctx : σ) (k : Nat) :
    ((1 ≤ k ∨ child_range (TriePredictor.ctor model) ctx = []) →
      (∀ c, c ∈ child_range (TriePredictor.ctor model) ctx → c < model.vocab_size) →
      ∃ r, predict H (TriePredictor.ctor model) ctx k = .ok r) ∧
    ∀ r, predict H (TriePredictor.ctor model) ctx k = .ok r →
      (∀ call, call ∈ r.calls → call.1 = ctx) ∧
      r.calls = (child_range (TriePredictor.ctor model) ctx).map
        (fun c => (ctx, model.vocab_byte_range c)) ∧
      ∃ kept : List Nat,
        r.value = kept.map (fun c => (string_of_range (model.vocab_byte_range c),
          (model.score ctx (model.vocab_byte_range c)).1)) ∧
        (∀ c, c ∈ kept → c ∈ child_range (TriePredictor.ctor model) ctx ∧
          (TriePredictor.ctor model).stringOf c =
            some (string_of_range (model.vocab_byte_range c))) ∧
        ((child_range (TriePredictor.ctor model) ctx).Nodup → kept.Nodup) := by
  constructor
  · intro hk hV
    obtain ⟨kept, rest, h1, _⟩ := predict_ctor_spec H hH model ctx k hk hV
    exact ⟨_, h1⟩
  · intro r hr
    obtain ⟨hk, hV⟩ := predict_ok_inv H (TriePredictor.ctor model) ctx k r hr
    rw [ctor_vocab_bytes_length] at hV
    obtain ⟨kept, rest, h1, h2, _, _, _⟩ := predict_ctor_spec H hH model ctx k hk hV
    rw [h1] at hr
    injection hr with hr
    subst hr
    refine ⟨?_, rfl, kept, rfl, ?_, ?_⟩
    · intro call hcall
      obtain ⟨c, _, rfl⟩ := List.mem_map.mp hcall
      rfl
    · intro c hc
      have hc' : c ∈ child_range (TriePredictor.ctor model) ctx :=
        h2.subset (List.mem_append_left _ hc)
      exact ⟨hc', by rw [TriePredictor.stringOf, ctor_vocab_strings_get model c (hV c hc')]⟩
    · intro hnd
      exact (List.nodup_append.mp (h2.nodup_iff.mpr hnd)).1

/-- C14. Heap size bound: the scoring loop over the candidates passes through the
state reached after the first `i` of them; whenever that state is reached its heap
holds at most `k` entries, for every `k`, and exactly `min k i` entries for `k ≥ 1`;
and for `k ≥ 1` it is reached when the candidates index `vocab_bytes_` in range. -/
theorem heap_size_bound {σ α : Type} [LinearOrder α]
    (H : heap_algorithms (Item α)) (hH : H.conforms cmp) (P : TriePredictor σ α) (ctx : σ)
    (k : Nat) (cands : List Nat) (i : Nat) (hi : i ≤ cands.length) :
    (score_loop H P ctx k cands ([], []) =
      match score_loop H P ctx k (cands.take i) ([], []) with
      | .error e => .error e
      | .ok acc => score_loop H P ctx k (cands.drop i) acc) ∧
    (∀ acc, score_loop H P ctx k (cands.take i) ([], []) = .ok acc →
      priority_queue.size acc.1 ≤ k ∧ (1 ≤ k → priority_queue.size acc.1 = min k i)) ∧
    (1 ≤ k → (∀ c, c ∈ cands → c < P.vocab_bytes_.length) →
      ∃ acc, score_loop H P ctx k (cands.take i) ([], []) = .ok acc) := by
  have hlen : (cands.take i).length = i := by
    rw [List.length_take]
    omega
  refine ⟨?_, ?_, ?_⟩
  · rw [← score_loop_append, List.take_append_drop]
  · intro acc hacc
    rcases Nat.eq_zero_or_pos k with h0 | hpos
    · subst h0
      cases htake : cands.take i with
      | nil =>
        rw [htake] at hacc
        simp only [score_loop] at hacc
        injection hacc with hacc
        subst hacc
        simp [priority_queue.size]
      | cons c it =>
        exfalso
        rw [htake] at hacc
        have hc := score_loop_ok_bytes H P ctx 0 (c :: it) _ _ hacc c (List.mem_cons_self _ _)
        rw [score_loop_zero H P ctx c it hc] at hacc
        cases hacc
    · have hb := score_loop_ok_bytes H P ctx k (cands.take i) _ _ hacc
      obtain ⟨acc', e1, e2⟩ := score_loop_size H hH P ctx k hpos (cands.take i) hb
      rw [e1] at hacc
      injection hacc with hacc
      subst hacc
      rw [hlen] at e2
      refine ⟨?_, fun _ => e2⟩
      rw [e2]
      exact Nat.min_le_left _ _
  · intro hk hb
    obtain ⟨acc, e1, _⟩ := score_loop_size H hH P ctx k hk (cands.take i)
      (fun c hc => hb c (List.mem_of_mem_take hc))
    exact ⟨acc, e1⟩

/-- C15. In-vocabulary feed: for every state `s` and every word `w` that `lookup`
finds under `id`, the bytes cached for `id` spell `w`, and `feed` returns the state
that the model's score produces from `s` on the byte span of `id`, after exactly one
call of the score operation, on `s` and that span; the returned log-probability and
the OOV flag are not part of what `feed` leaves. -/
theorem feed_in_vocabulary {σ α : Type} (model : Model σ α) (s : σ) (w : std_string) (id : Nat)
    (hw : (TriePredictor.ctor model).lookup w = some id) :
    string_of_range (model.vocab_byte_range id) = w ∧
    (TriePredictor.ctor model).vocab_bytes_[id]? = some (model.vocab_byte_range id) ∧
    feed (TriePredictor.ctor model) s w =
      .ok { value := (model.score s (model.vocab_byte_range id)).2.2,
            calls := [(s, model.vocab_byte_range id)] } := by
  obtain ⟨hid, hstr, _⟩ := (ctor_lookup_eq_some model w id).mp hw
  exact ⟨hstr, ctor_vocab_bytes_get model id hid, feed_ctor_found model s w id hw⟩

/-! ## Ties -/

/-- A full heap rejects a candidate that does not score strictly more than its top. -/
theorem score_step_reject {σ α : Type} [LinearOrder α] (H : heap_algorithms (Item α))
    (P : TriePredictor σ α) (ctx : σ) (k : Nat) (heap : priority_queue (Item α))
    (calls : List (ScoreCall σ)) (c : Nat) (br : byte_range) (t : Item α)
    (hbr : P.vocab_bytes_[c]? = some br) (hfull : k ≤ priority_queue.size heap)
    (htop : priority_queue.top heap = some t) (hle : (P.model_.score ctx br).1 ≤ t.1) :
    score_step H P ctx k (heap, calls) c = .ok (heap, calls ++ [(ctx, br)]) := by
  have h1 : ¬ priority_queue.size heap < k := by omega
  have h2 : ¬ (P.model_.score ctx br).1 > t.1 := not_lt.mpr hle
  simp [score_step, hbr, h1, htop, h2]

/-- When all the candidates score the same, the scoring loop keeps in the heap the
first `k` items it has seen. -/
theorem score_loop_ties {σ α : Type} [LinearOrder α] (H : heap_algorithms (Item α))
    (hH : H.conforms cmp) (P : TriePredictor σ α) (ctx : σ) (k : Nat) (hk : 1 ≤ k)
    (bytes : Nat → byte_range) (v : α) (cands : List Nat) :
    ∀ (done : List Nat) (heap : List (Item α)) (calls : List (ScoreCall σ)),
      (∀ c, c ∈ done ++ cands → P.vocab_bytes_[c]? = some (bytes c)) →
      (∀ c, c ∈ done ++ cands → (P.model_.score ctx (bytes c)).1 = v) →
      is_heap cmp heap →
      heap.Perm ((done.take k).map (fun c => ((P.model_.score ctx (bytes c)).1, c))) →
      ∃ heap',
        score_loop H P ctx k cands (heap, calls) =
          .ok (heap', calls ++ cands.map (fun c => (ctx, bytes c))) ∧
        is_heap cmp heap' ∧
        heap'.Perm (((done ++ cands).take k).map
          (fun c => ((P.model_.score ctx (bytes c)).1, c))) := by
  induction cands with
  | nil =>
    intro done heap calls _ _ h1 h2
    exact ⟨heap, by simp [score_loop], h1, by simpa using h2⟩
  | cons c it ih =>
    intro done heap calls hb hv h1 h2
    have hbc := hb c (by simp)
    have hlen : heap.length = min k done.length := by
      rw [h2.length_eq, List.length_map, List.length_take]
    have hassoc : done ++ c :: it = (done ++ [c]) ++ it := by simp
    by_cases hsz : heap.length < k
    · have hdone : done.length < k := by omega
      obtain ⟨p1, p2⟩ := push_spec H hH heap ((P.model_.score ctx (bytes c)).1, c) h1
      have hstep : score_step H P ctx k (heap, calls) c =
          .ok (priority_queue.push H heap ((P.model_.score ctx (bytes c)).1, c),
            calls ++ [(ctx, bytes c)]) := by
        simp [score_step, hbc, priority_queue.size, hsz]
      have hperm : (priority_queue.push H heap ((P.model_.score ctx (bytes c)).1, c)).Perm
          (((done ++ [c]).take k).map (fun c => ((P.model_.score ctx (bytes c)).1, c))) := by
        rw [List.take_of_length_le (by simp; omega)]
        rw [List.take_of_length_le (by omega)] at h2
        rw [List.map_append]
        exact p2.trans ((h2.cons _).trans (List.perm_append_singleton _ _).symm)
      obtain ⟨heap', e, g1, g2⟩ := ih (done ++ [c]) _ (calls ++ [(ctx, bytes c)])
        (by rw [← hassoc]; exact hb) (by rw [← hassoc]; exact hv) p1 hperm
      refine ⟨heap', ?_, g1, by rw [hassoc]; exact g2⟩
      simp only [score_loop, hstep, e]
      simp
    · have hdone : k ≤ done.length := by omega
      cases heap with
      | nil =>
        simp at hlen
        omega
      | cons t q =>
        have ht : t ∈ (done.take k).map (fun c => ((P.model_.score ctx (bytes c)).1, c)) :=
          h2.subset (List.mem_cons_self _ _)
        obtain ⟨c', hc', rfl⟩ := List.mem_map.mp ht
        have hvc' := hv c' (List.mem_append_left _ (List.mem_of_mem_take hc'))
        have hvc := hv c (by simp)
        have hstep := score_step_reject H P ctx k
          (((P.model_.score ctx (bytes c')).1, c') :: q) calls c (bytes c) _ hbc
          (by simp only [priority_queue.size]; omega) rfl (by simp only; rw [hvc, hvc'])
        have hperm : (((P.model_.score ctx (bytes c')).1, c') :: q).Perm
            (((done ++ [c]).take k).map (fun c => ((P.model_.score ctx (bytes c)).1, c))) := by
          rw [List.take_append_of_le_length hdone]
          exact h2
        obtain ⟨heap', e, g1, g2⟩ := ih (done ++ [c]) _ (calls ++ [(ctx, bytes c)])
          (by rw [← hassoc]; exact hb) (by rw [← hassoc]; exact hv) h1 hperm
        refine ⟨heap', ?_, g1, by rw [hassoc]; exact g2⟩
        simp only [score_loop, hstep, e]
        simp

/-- C16. Tie-break at the admission boundary: once the heap holds `k` entries, a
candidate whose log-probability is not strictly greater than that of the top of the
heap (its current minimum), in particular one equal to it, leaves the heap as it is;
and when all the candidates have the same log-probability and `k ≥ 1`, the ids
returned by `predict` are, up to their order, the first `min k C` candidates of the
range in its enumeration order. -/
theorem predict_tie_break {σ α : Type} [LinearOrder α] [Inhabited α]
    (H : heap_algorithms (Item α)) (hH : H.conforms cmp) (model : Model σ α) (ctx : σ) (k : Nat) :
    (∀ (heap : priority_queue (Item α)) (calls : List (ScoreCall σ)) (c : Nat) (t : Item α),
      c < model.vocab_size → k ≤ priority_queue.size heap → priority_queue.top heap = some t →
      (model.score ctx (model.vocab_byte_range c)).1 ≤ t.1 →
      score_step H (TriePredictor.ctor model) ctx k (heap, calls) c =
        .ok (heap, calls ++ [(ctx, model.vocab_byte_range c)])) ∧
    (∀ v : α, 1 ≤ k →
      (∀ c, c ∈ child_range (TriePredictor.ctor model) ctx → c < model.vocab_size) →
      (∀ c, c ∈ child_range (TriePredictor.ctor model) ctx →
        (model.score ctx (model.vocab_byte_range c)).1 = v) →
      ∃ (r : Run σ (List (std_string × α))) (kept : List Nat),
        predict H (TriePredictor.ctor model) ctx k = .ok r ∧
        r.value = kept.map (fun c => (string_of_range (model.vocab_byte_range c),
          (model.score ctx (model.vocab_byte_range c)).1)) ∧
        kept.Perm ((child_range (TriePredictor.ctor model) ctx).take k) ∧
        kept.length = min k (child_range (TriePredictor.ctor model) ctx).length) := by
  constructor
  · intro heap calls c t hc hfull htop hle
    exact score_step_reject H (TriePredictor.ctor model) ctx k heap calls c
      (model.vocab_byte_range c) t (ctor_vocab_bytes_get model c hc) hfull htop hle
  · intro v hk hV hv
    by_cases hr : child_range (TriePredictor.ctor model) ctx = []
    · exact ⟨{ value := [], calls := [] }, [], by simp [predict, hr], rfl, by simp [hr],
        by simp [hr]⟩
    · obtain ⟨heap, e1, g1, g2⟩ := score_loop_ties H hH (TriePredictor.ctor model) ctx k hk
        model.vocab_byte_range v (child_range (TriePredictor.ctor model) ctx) [] [] []
        (fun c hc => ctor_vocab_bytes_get model c (hV c (by simpa using hc)))
        (fun c hc => hv c (by simpa using hc)) (is_heap_nil _) (by simp)
      simp only [List.nil_append] at e1 g2
      have hmem : ∀ t, t ∈ heap → t.2 ∈ child_range (TriePredictor.ctor model) ctx ∧
          t.1 = (model.score ctx (model.vocab_byte_range t.2)).1 := by
        intro t ht
        obtain ⟨c, hc, rfl⟩ := List.mem_map.mp (g2.subset ht)
        exact ⟨List.mem_of_mem_take hc, rfl⟩
      obtain ⟨L, hL1, _, hL3⟩ := export_loop_spec H hH (TriePredictor.ctor model)
        (fun c => string_of_range (model.vocab_byte_range c)) heap.length heap
        (List.replicate heap.length (([] : std_string), (default : α))) g1 rfl (by simp)
        (fun t ht => ctor_vocab_strings_get model t.2 (hV t.2 (hmem t ht).1))
      have hp : predict H (TriePredictor.ctor model) ctx k =
          .ok { value := L.map (fun t => (string_of_range (model.vocab_byte_range t.2), t.1)),
                calls := (child_range (TriePredictor.ctor model) ctx).map
                  (fun c => (ctx, model.vocab_byte_range c)) } := by
        simp only [predict, hr, if_false, e1, priority_queue.size, List.length_replicate, hL3]
        simp
      refine ⟨_, L.map Prod.snd, hp, ?_, ?_, ?_⟩
      · simp only [List.map_map]
        apply List.map_congr_left
        intro t ht
        simp only [Function.comp_apply]
        rw [(hmem t (hL1.subset ht)).2]
      · refine ((hL1.trans g2).map Prod.snd).trans ?_
        rw [List.map_map]
        simp [Function.comp_def]
      · rw [List.length_map, (hL1.trans g2).length_eq, List.length_map, List.length_take]

/-! ## The returned log-probabilities -/

/-- The log-probabilities that `predict` returns are the first `k` of the descending
sort of the candidate scores. -/
theorem predict_scores {σ α : Type} [LinearOrder α] [Inhabited α]
    (H : heap_algorithms (Item α)) (hH : H.conforms cmp) (model : Model σ α) (ctx : σ) (k : Nat)
    (hk : 1 ≤ k ∨ child_range (TriePredictor.ctor model) ctx = [])
    (hV : ∀ c, c ∈ child_range (TriePredictor.ctor model) ctx → c < model.vocab_size) :
    ∃ r, predict H (TriePredictor.ctor model) ctx k = .ok r ∧
      r.value.map Prod.snd =
        (((child_range (TriePredictor.ctor model) ctx).map
          (fun c => (model.score ctx (model.vocab_byte_range c)).1)).insertionSort
            (fun a b => a ≥ b)).take k := by
  obtain ⟨kept, rest, h1, h2, h3, h4, h5⟩ := predict_ctor_spec H hH model ctx k hk hV
  refine ⟨_, h1, ?_⟩
  have hsplit := eq_take_of_split
    (kept.map (fun c => (model.score ctx (model.vocab_byte_range c)).1))
    (rest.map (fun c => (model.score ctx (model.vocab_byte_range c)).1))
    ((child_range (TriePredictor.ctor model) ctx).map
      (fun c => (model.score ctx (model.vocab_byte_range c)).1)) h3
    (by rw [← List.map_append]; exact h2.map _)
    (by
      intro r hr a ha
      obtain ⟨cr, hcr', rfl⟩ := List.mem_map.mp hr
      obtain ⟨ca, hca, rfl⟩ := List.mem_map.mp ha
      exact h4 cr hcr' ca hca)
  rw [List.length_map, h5] at hsplit
  simp only [List.map_map]
  have hcomp : (Prod.snd ∘ fun c => (string_of_range (model.vocab_byte_range c),
      (model.score ctx (model.vocab_byte_range c)).1)) =
      fun c => (model.score ctx (model.vocab_byte_range c)).1 := rfl
  rw [hcomp, hsplit]
  rw [List.take_eq_take]
  simp only [List.length_insertionSort, List.length_map]
  omega

/-- C17. Prefix monotonicity in `k`: for every context and every `k ≥ 1` (the
candidates being vocabulary ids), `predict(ctx, k)` and `predict(ctx, k + 1)` return,
the log-probabilities of each are the first `k`, respectively `k + 1`, values of the
descending sort of all the candidate scores, and the first sequence is a prefix of
the second. -/
theorem predict_prefix_in_k {σ α : Type} [LinearOrder α] [Inhabited α]
    (H : heap_algorithms (Item α)) (hH : H.conforms cmp) (model : Model σ α) (ctx : σ) (k : Nat)
    (hk : 1 ≤ k)
    (hV : ∀ c, c ∈ child_range (TriePredictor.ctor model) ctx → c < model.vocab_size) :
    ∃ r1 r2, predict H (TriePredictor.ctor model) ctx k = .ok r1 ∧
      predict H (TriePredictor.ctor model) ctx (k + 1) = .ok r2 ∧
      r1.value.map Prod.snd =
        (((child_range (TriePredictor.ctor model) ctx).map
          (fun c => (model.score ctx (model.vocab_byte_range c)).1)).insertionSort
            (fun a b => a ≥ b)).take k ∧
      r2.value.map Prod.snd =
        (((child_range (TriePredictor.ctor model) ctx).map
          (fun c => (model.score ctx (model.vocab_byte_range c)).1)).insertionSort
            (fun a b => a ≥ b)).take (k + 1) ∧
      r1.value.map Prod.snd <+: r2.value.map Prod.snd := by
  obtain ⟨r1, e1, s1⟩ := predict_scores H hH model ctx k (Or.inl hk) hV
  obtain ⟨r2, e2, s2⟩ := predict_scores H hH model ctx (k + 1) (Or.inl (by omega)) hV
  refine ⟨r1, r2, e1, e2, s1, s2, ?_⟩
  rw [s1, s2]
  refine ⟨List.drop k (List.take (k + 1)
    (((child_range (TriePredictor.ctor model) ctx).map
      (fun c => (model.score ctx (model.vocab_byte_range c)).1)).insertionSort
        (fun a b => a ≥ b))), ?_⟩
  have h := List.take_append_drop k (List.take (k + 1)
    (((child_range (TriePredictor.ctor model) ctx).map
      (fun c => (model.score ctx (model.vocab_byte_range c)).1)).insertionSort
        (fun a b => a ≥ b)))
  rw [List.take_take, Nat.min_eq_left (Nat.le_succ k)] at h
  exact h

/-! ## The keys of the vocabulary map -/

theorem not_key_of_find_eq_none (m : unordered_map) (w : std_string)
    (h : unordered_map.find m w = none) : w ∉ m.map Prod.fst := by
  induction m with
  | nil => simp
  | cons e m ih =>
    obtain ⟨key, v⟩ := e
    by_cases hk : key = w
    · simp [unordered_map.find, hk] at h
    · simp only [unordered_map.find, if_neg hk] at h
      simp only [List.map_cons, List.mem_cons, not_or]
      exact ⟨Ne.symm hk, ih h⟩

/-- The member `emplace` keeps the keys distinct. -/
theorem emplace_keys_nodup (m : unordered_map) (key : std_string) (v : Nat)
    (h : (m.map Prod.fst).Nodup) : ((unordered_map.emplace m key v).map Prod.fst).Nodup := by
  unfold unordered_map.emplace
  cases hf : unordered_map.find m key with
  | some _ => exact h
  | none =>
    simp only [List.map_append, List.map_cons, List.map_nil]
    rw [List.nodup_append]
    refine ⟨h, List.nodup_singleton _, ?_⟩
    intro a ha hb
    rw [List.mem_singleton] at hb
    subst hb
    exact not_key_of_find_eq_none m a hf ha

theorem foldl_map_step_keys_nodup (strs : List std_string) (n : Nat) :
    (((List.range n).foldl (map_step strs) []).map Prod.fst).Nodup := by
  induction n with
  | zero => simp
  | succ n ih =>
    rw [List.range_succ, List.foldl_append]
    simp only [List.foldl_cons, List.foldl_nil, map_step]
    cases strs[n]? with
    | none => exact ih
    | some s => exact emplace_keys_nodup _ s n ih

/-- When the cached strings are pairwise distinct, each iteration of the second
constructor loop adds an entry. -/
theorem foldl_map_step_length (strs : List std_string)
    (hd : ∀ (i j : Nat) (s : std_string), strs[i]? = some s → strs[j]? = some s → i = j)
    (n : Nat) (hn : n ≤ strs.length) :
    ((List.range n).foldl (map_step strs) []).length = n := by
  induction n with
  | zero => simp
  | succ n ih =>
    have hlt : n < strs.length := by omega
    have hs : strs[n]? = some strs[n] := List.getElem?_eq_getElem hlt
    obtain ⟨hA, _⟩ := foldl_map_step_inv strs n (by omega)
    have ih' := ih (by omega)
    rw [List.range_succ, List.foldl_append]
    simp only [List.foldl_cons, List.foldl_nil, map_step, hs, unordered_map.emplace]
    cases hf : unordered_map.find ((List.range n).foldl (map_step strs) []) strs[n] with
    | some v =>
      exfalso
      obtain ⟨h1, h2, _⟩ := hA _ v hf
      have := hd v n _ h2 hs
      omega
    | none => simp [ih']

/-- C18. Duplicate vocabulary strings resolve to the smallest id: for every string
cached for some id of `[0, V)`, `lookup` returns the least id of `[0, V)` whose cached
string it is; and when the byte spans the model supplies for the ids of `[0, V)` are
pairwise distinct, `lookup(stringOf(id))` is `id` for every id of `[0, V)` and the map
has exactly `V` keys. -/
theorem lookup_least_id {σ α : Type} (model : Model σ α) :
    (∀ s, (∃ j, j < model.vocab_size ∧ (TriePredictor.ctor model).stringOf j = some s) →
      ∃ i, (TriePredictor.ctor model).lookup s = some i ∧ i < model.vocab_size ∧
        (TriePredictor.ctor model).stringOf i = some s ∧
        ∀ j, j < model.vocab_size → (TriePredictor.ctor model).stringOf j = some s → i ≤ j) ∧
    ((∀ i, i < model.vocab_size → ∀ j, j < model.vocab_size →
        model.vocab_byte_range i = model.vocab_byte_range j → i = j) →
      (∀ id, id < model.vocab_size →
        ∃ s, (TriePredictor.ctor model).stringOf id = some s ∧
          (TriePredictor.ctor model).lookup s = some id) ∧
      ((TriePredictor.ctor model).vocab_map_.map Prod.fst).Nodup ∧
      (TriePredictor.ctor model).vocab_map_.length = model.vocab_size) := by
  have hstr : ∀ j, j < model.vocab_size → ∀ s,
      ((TriePredictor.ctor model).stringOf j = some s ↔
        string_of_range (model.vocab_byte_range j) = s) := by
    intro j hj s
    rw [TriePredictor.stringOf, ctor_vocab_strings_get model j hj]
    simp
  constructor
  · rintro s ⟨j, hj, hjs⟩
    have hex : ∃ i, i < model.vocab_size ∧ string_of_range (model.vocab_byte_range i) = s :=
      ⟨j, hj, (hstr j hj s).mp hjs⟩
    have hspec := Nat.find_spec hex
    refine ⟨Nat.find hex, ?_, hspec.1, (hstr _ hspec.1 s).mpr hspec.2, ?_⟩
    · rw [ctor_lookup_eq_some]
      refine ⟨hspec.1, hspec.2, ?_⟩
      intro j' hj' hj's
      exact Nat.find_min hex hj' ⟨by omega, hj's⟩
    · intro j' hj' hj's
      exact Nat.find_min' hex ⟨hj', (hstr j' hj' s).mp hj's⟩
  · intro hdist
    refine ⟨?_, ?_, ?_⟩
    · intro id hid
      refine ⟨string_of_range (model.vocab_byte_range id), (hstr id hid _).mpr rfl, ?_⟩
      rw [ctor_lookup_eq_some]
      refine ⟨hid, rfl, ?_⟩
      intro j hj hjw
      have := hdist j (by omega) id hid hjw
      omega
    · rw [ctor_vocab_map]
      exact foldl_map_step_keys_nodup _ _
    · rw [ctor_vocab_map, foldl_map_step_length _ ?_ _ (le_refl _), ctor_vocab_strings_length]
      intro i j s hi hj
      have hi' : i < model.vocab_size := by
        by_contra hcon
        rw [List.getElem?_eq_none (by rw [ctor_vocab_strings_length]; omega)] at hi
        cases hi
      have hj' : j < model.vocab_size := by
        by_contra hcon
        rw [List.getElem?_eq_none (by rw [ctor_vocab_strings_length]; omega)] at hj
        cases hj
      rw [ctor_vocab_strings_get model i hi'] at hi
      rw [ctor_vocab_strings_get model j hj'] at hj
      apply hdist i hi' j hj'
      have := hi.trans hj.symm
      simpa [string_of_range] using this

/-! ## The further claims at concrete inputs

The demo model with the contexts `[0, 1]` (last word "quick", whose only successor
is 2), `[0]` (successors 1, 2, 3, 4 scoring -4, -4, -2, -4) and `[0, 1, 2]` (last word
"brown", successors 3, 0, 3 all scoring 0). -/

theorem predict_single_successor_witness :
    ∃ s, (TriePredictor.ctor demo_model).stringOf 2 = some s ∧
      predict (sorting_heap Int) (TriePredictor.ctor demo_model) [0, 1] 5 =
        .ok { value := [(s, (demo_model.score [0, 1] (demo_model.vocab_byte_range 2)).1)],
              calls := [([0, 1], demo_model.vocab_byte_range 2)] } :=
  predict_single_successor.1 (List Nat) Int (sorting_heap Int) demo_model [0, 1] 5 2
    sorting_heap_conforms (by decide) (by decide) (by decide) (by decide)

theorem predict_scratch_isolation_witness :
    (∃ r, predict (sorting_heap Int) (TriePredictor.ctor demo_model) [0] 2 = .ok r) ∧
    ∀ r, predict (sorting_heap Int) (TriePredictor.ctor demo_model) [0] 2 = .ok r →
      (∀ call, call ∈ r.calls → call.1 = [0]) ∧
      r.calls = (child_range (TriePredictor.ctor demo_model) [0]).map
        (fun c => (([0] : List Nat), demo_model.vocab_byte_range c)) ∧
      ∃ kept : List Nat,
        r.value = kept.map (fun c => (string_of_range (demo_model.vocab_byte_range c),
          (demo_model.score [0] (demo_model.vocab_byte_range c)).1)) ∧
        (∀ c, c ∈ kept → c ∈ child_range (TriePredictor.ctor demo_model) [0] ∧
          (TriePredictor.ctor demo_model).stringOf c =
            some (string_of_range (demo_model.vocab_byte_range c))) ∧
        ((child_range (TriePredictor.ctor demo_model) [0]).Nodup → kept.Nodup) :=
  ⟨(predict_scratch_isolation (sorting_heap Int) sorting_heap_conforms demo_model [0] 2).1
      (Or.inl (by decide)) (by decide),
    (predict_scratch_isolation (sorting_heap Int) sorting_heap_conforms demo_model [0] 2).2⟩

theorem heap_size_bound_witness :
    (score_loop (sorting_heap Int) demo_predictor [0] 2 [1, 2, 3, 4] ([], []) =
      match score_loop (sorting_heap Int) demo_predictor [0] 2 ([1, 2, 3, 4].take 3) ([], []) with
      | .error e => .error e
      | .ok acc => score_loop (sorting_heap Int) demo_predictor [0] 2 ([1, 2, 3, 4].drop 3) acc) ∧
    (∀ acc, score_loop (sorting_heap Int) demo_predictor [0] 2 ([1, 2, 3, 4].take 3) ([], []) =
        .ok acc →
      priority_queue.size acc.1 ≤ 2 ∧ (1 ≤ 2 → priority_queue.size acc.1 = min 2 3)) ∧
    (1 ≤ 2 → (∀ c, c ∈ [1, 2, 3, 4] → c < demo_predictor.vocab_bytes_.length) →
      ∃ acc, score_loop (sorting_heap Int) demo_predictor [0] 2 ([1, 2, 3, 4].take 3) ([], []) =
        .ok acc) :=
  heap_size_bound (sorting_heap Int) sorting_heap_conforms demo_predictor [0] 2 [1, 2, 3, 4] 3
    (by decide)

theorem feed_in_vocabulary_witness :
    string_of_range (demo_model.vocab_byte_range 2) = [98, 114, 111, 119, 110] ∧
    (TriePredictor.ctor demo_model).vocab_bytes_[2]? = some (demo_model.vocab_byte_range 2) ∧
    feed (TriePredictor.ctor demo_model) [0, 1] [98, 114, 111, 119, 110] =
      .ok { value := (demo_model.score [0, 1] (demo_model.vocab_byte_range 2)).2.2,
            calls := [([0, 1], demo_model.vocab_byte_range 2)] } :=
  feed_in_vocabulary demo_model [0, 1] [98, 114, 111, 119, 110] 2 (by decide)

theorem predict_tie_break_witness :
    ∃ (r : Run (List Nat) (List (std_string × Int))) (kept : List Nat),
      predict (sorting_heap Int) (TriePredictor.ctor demo_model) [0, 1, 2] 2 = .ok r ∧
      r.value = kept.map (fun c => (string_of_range (demo_model.vocab_byte_range c),
        (demo_model.score [0, 1, 2] (demo_model.vocab_byte_range c)).1)) ∧
      kept.Perm ((child_range (TriePredictor.ctor demo_model) [0, 1, 2]).take 2) ∧
      kept.length = min 2 (child_range (TriePredictor.ctor demo_model) [0, 1, 2]).length :=
  (predict_tie_break (sorting_heap Int) sorting_heap_conforms demo_model [0, 1, 2] 2).2 0
    (by decide) (by decide) (by decide)

theorem predict_prefix_in_k_witness :
    ∃ r1 r2, predict (sorting_heap Int) (TriePredictor.ctor demo_model) [0] 2 = .ok r1 ∧
      predict (sorting_heap Int) (TriePredictor.ctor demo_model) [0] (2 + 1) = .ok r2 ∧
      r1.value.map Prod.snd =
        (((child_range (TriePredictor.ctor demo_model) [0]).map
          (fun c => (demo_model.score [0] (demo_model.vocab_byte_range c)).1)).insertionSort
            (fun a b => a ≥ b)).take 2 ∧
      r2.value.map Prod.snd =
        (((child_range (TriePredictor.ctor demo_model) [0]).map
          (fun c => (demo_model.score [0] (demo_model.vocab_byte_range c)).1)).insertionSort
            (fun a b => a ≥ b)).take (2 + 1) ∧
      r1.value.map Prod.snd <+: r2.value.map Prod.snd :=
  predict_prefix_in_k (sorting_heap Int) sorting_heap_conforms demo_model [0] 2
    (by decide) (by decide)

theorem lookup_least_id_witness :
    (∃ i, (TriePredictor.ctor twin_model).lookup [97] = some i ∧ i < twin_model.vocab_size ∧
        (TriePredictor.ctor twin_model).stringOf i = some [97] ∧
        ∀ j, j < twin_model.vocab_size →
          (TriePredictor.ctor twin_model).stringOf j = some [97] → i ≤ j) ∧
    (∀ id, id < demo_model.vocab_size →
        ∃ s, (TriePredictor.ctor demo_model).stringOf id = some s ∧
          (TriePredictor.ctor demo_model).lookup s = some id) ∧
    ((TriePredictor.ctor demo_model).vocab_map_.map Prod.fst).Nodup ∧
    (TriePredictor.ctor demo_model).vocab_map_.length = demo_model.vocab_size :=
  ⟨(lookup_least_id twin_model).1 [97] ⟨1, by decide, by decide⟩,
    (lookup_least_id demo_model).2 (by decide)⟩

end claims

end tongrams
